import Mathlib

/-!
Shallow embedding of `Wordle_Solver.py` and verification of its
specification.

Modelling conventions:
* a Python string is a `List Char` (the repository only handles ASCII text);
* a Python `dict` is an insertion-ordered association list without duplicate
  keys; `dict` reads take the first matching entry, writes update every
  matching entry in place (which coincide on duplicate-free lists);
* a Python `set` is an insertion-ordered duplicate-free list, so set values
  are compared by membership;
* an `IndexError` escaping from `w[i]` is the value `none` of `Option`;
* a `ValueError` raised by a parser is the `Except.error` branch, carrying
  the message;
* the floating point scores of the ranker are modelled in exact rational
  arithmetic.
-/

namespace WordleSolver

/-- A Python string: a list of characters. -/
abbrev PyStr := List Char

/-- Python `str.lower`, applied characterwise. -/
def lowerStr (w : PyStr) : PyStr := w.map Char.toLower

/-- Python `str.strip`: remove leading and trailing whitespace. -/
def pyStrip (s : PyStr) : PyStr :=
  ((s.dropWhile Char.isWhitespace).reverse.dropWhile Char.isWhitespace).reverse

/-- Helper for `pySplitWs`, carrying the current token reversed. -/
def splitWsAux : PyStr → PyStr → List PyStr
  | [], cur => if cur = [] then [] else [cur.reverse]
  | c :: rest, cur =>
    if c.isWhitespace then
      if cur = [] then splitWsAux rest [] else cur.reverse :: splitWsAux rest []
    else splitWsAux rest (c :: cur)

/-- Python `str.split()` with no argument: split on whitespace runs,
dropping empty chunks. -/
def pySplitWs (s : PyStr) : List PyStr := splitWsAux s []

/-- Python `s[i]`: character at a 0-based index, `none` on an `IndexError`. -/
def pyIdx : PyStr → Nat → Option Char
  | [], _ => none
  | c :: _, 0 => some c
  | _ :: rest, i + 1 => pyIdx rest i

/-- Python `enumerate(s, i)`. -/
def pyEnumFrom (i : Nat) : PyStr → List (Nat × Char)
  | [] => []
  | c :: rest => (i, c) :: pyEnumFrom (i + 1) rest

/-- Number of occurrences of a character in a word. -/
def pyCount (w : PyStr) (ch : Char) : Nat := w.countP (fun c => decide (c = ch))

/-- Python `set.add` on an insertion-ordered duplicate-free list. -/
def setAdd [DecidableEq α] (s : List α) (x : α) : List α :=
  if x ∈ s then s else s ++ [x]

/-- Python `set(xs)`: the distinct elements of `xs`. -/
def pySet [DecidableEq α] (xs : List α) : List α := xs.foldl setAdd []

/-- Python `d[k]` and `d.get(k)`: first matching entry of the association
list. -/
def alookup [DecidableEq α] (k : α) : List (α × β) → Option β
  | [] => none
  | p :: rest => if p.1 = k then some p.2 else alookup k rest

/-- Python `d.get(k, v)`: lookup with a default. -/
def alookupD [DecidableEq α] (k : α) (d : List (α × β)) (v : β) : β :=
  (alookup k d).getD v

/-- Replace the value of every entry with key `k`. -/
def mapAt [DecidableEq α] (d : List (α × β)) (k : α) (g : β → β) : List (α × β) :=
  d.map (fun p => if p.1 = k then (p.1, g p.2) else p)

/-- Python `d[k] = v`: overwrite the entry in place, or append a new one. -/
def dictInsert [DecidableEq α] (d : List (α × β)) (k : α) (v : β) : List (α × β) :=
  if (alookup k d).isSome then mapAt d k (fun _ => v) else d ++ [(k, v)]

/-- Python `d.update(upd)`: assign every entry of `upd` into `d`, left to
right. -/
def dictUpdate [DecidableEq α] (d upd : List (α × β)) : List (α × β) :=
  upd.foldl (fun acc p => dictInsert acc p.1 p.2) d

/-- `Counter` increment `c[x] += 1`, with implicit default 0. -/
def counterInc [DecidableEq α] (c : List (α × Nat)) (x : α) : List (α × Nat) :=
  if (alookup x c).isSome then mapAt c x (fun n => n + 1) else c ++ [(x, 1)]

/-- `Counter` read `c.get(x, 0)`. -/
def counterGet [DecidableEq α] (c : List (α × Nat)) (x : α) : Nat :=
  alookupD x c 0

/-- `defaultdict(set)` write `banned_positions[letter].add(idx)`. -/
def bannedAdd (b : List (Char × List Nat)) (letter : Char) (idx : Nat) :
    List (Char × List Nat) :=
  if (alookup letter b).isSome then mapAt b letter (fun s => setAdd s idx)
  else b ++ [(letter, [idx])]

/-- Loop body of `parse_greens_pattern` from position `i`: stops at the
first character that is neither a placeholder nor alphabetic. -/
def parseGreensGo : Nat → PyStr → List (Nat × Char) → Except String (List (Nat × Char))
  | _, [], out => .ok out
  | i, ch :: rest, out =>
    if ch = '.' ∨ ch = '_' then parseGreensGo (i + 1) rest out
    else if ch.isAlpha then parseGreensGo (i + 1) rest (dictInsert out i ch.toLower)
    else .error "Greens pattern must contain letters or . only."

/-- `parse_greens_pattern`: a pattern like `".r..e"` becomes the mapping
`[(1, r), (4, e)]` with 0-based indices; placeholders are `.` and `_`. -/
def parse_greens_pattern (pattern : PyStr) : Except String (List (Nat × Char)) :=
  parseGreensGo 0 (pyStrip pattern) []

/-- Digit tail of a Python integer literal: single underscores are allowed
between digits. -/
def pyDigitsAux : Nat → PyStr → Option Nat
  | acc, [] => some acc
  | acc, '_' :: c :: rest =>
    if c.isDigit then pyDigitsAux (acc * 10 + (c.toNat - 48)) rest else none
  | _, ['_'] => none
  | acc, c :: rest =>
    if c.isDigit then pyDigitsAux (acc * 10 + (c.toNat - 48)) rest else none

/-- Nonempty digit sequence of a Python integer literal. -/
def pyDigits : PyStr → Option Nat
  | [] => none
  | c :: rest => if c.isDigit then pyDigitsAux (c.toNat - 48) rest else none

/-- Python `int(s)` on ASCII text: optional surrounding whitespace, an
optional sign, then a nonempty digit sequence. -/
def pyParseInt (s : PyStr) : Option Int :=
  match pyStrip s with
  | '+' :: rest => (pyDigits rest).map (fun n => (n : Int))
  | '-' :: rest => (pyDigits rest).map (fun n => -(n : Int))
  | rest => (pyDigits rest).map (fun n => (n : Int))

/-- Letter part of a yellow token: the text before the first separator. -/
def letterPart (p : PyStr) : PyStr := p.takeWhile (fun c => decide (c ≠ '@'))

/-- Position part of a yellow token: the text after the first separator. -/
def posPart (p : PyStr) : PyStr := (p.dropWhile (fun c => decide (c ≠ '@'))).drop 1

/-- Parse one token `letter@pos` of the yellows specification: the letter
part must be a single alphabetic character and the 1-based position must
parse as an integer inside the word. -/
def parseYellowToken (p : PyStr) (word_len : Nat) : Except String (Char × Nat) :=
  if '@' ∈ p then
    if (letterPart p).length ≠ 1 ∨ ¬ (letterPart p).all Char.isAlpha then
      .error "Bad yellow letter."
    else
      match pyParseInt (posPart p) with
      | some idx1 =>
        if 1 ≤ idx1 ∧ idx1 ≤ (word_len : Int) then
          .ok (((letterPart p).headD 'a').toLower, (idx1 - 1).toNat)
        else .error "Yellow position out of range."
      | none => .error "Bad yellow position."
  else .error "Yellow entry must be letter at pos."

/-- Tokens of the yellows specification: commas become spaces, then split
on whitespace. -/
def yellowTokens (spec : PyStr) : List PyStr :=
  pySplitWs ((pyStrip spec).map (fun c => if c = ',' then ' ' else c))

/-- Loop body of `parse_yellows`: the first bad token raises. -/
def parseYellowsGo (word_len : Nat) :
    List PyStr → List (Char × Nat) → Except String (List (Char × Nat))
  | [], out => .ok out
  | p :: rest, out =>
    match parseYellowToken p word_len with
    | .ok pair => parseYellowsGo word_len rest (out ++ [pair])
    | .error e => .error e

/-- `parse_yellows`: parse `"a@3 n@5"` into `[(a, 2), (n, 4)]`, 0-based;
an empty or whitespace-only input yields the empty list. -/
def parse_yellows (spec : PyStr) (word_len : Nat) :
    Except String (List (Char × Nat)) :=
  if pyStrip spec = [] then .ok []
  else parseYellowsGo word_len (yellowTokens spec) []

/-- The four global constraint structures of a session. -/
structure SolverState where
  greens : List (Nat × Char)
  mins : List (Char × Nat)
  banned : List (Char × List Nat)
  excluded : List Char
deriving DecidableEq, Repr

/-- The empty constraint state a session starts from. -/
def emptyState : SolverState := ⟨[], [], [], []⟩

/-- Current minimum-count requirement for a letter (0 when absent). -/
def minGet (st : SolverState) (ch : Char) : Nat := alookupD ch st.mins 0

/-- Current banned-position set for a letter (empty when absent). -/
def bannedGet (st : SolverState) (ch : Char) : List Nat :=
  (alookup ch st.banned).getD []

/-- Green-marking step of `update_constraints_from_feedback`: count the
guess letter when this round fixes the same letter at that position. -/
def greensStep (greens : List (Nat × Char)) (cnt : List (Char × Nat))
    (p : Nat × Char) : List (Char × Nat) :=
  match alookup p.1 greens with
  | some gch => if gch.toLower = p.2 then counterInc cnt p.2 else cnt
  | none => cnt

/-- Yellow-marking step of `update_constraints_from_feedback`: count the
letter when the guess really holds it at the reported position, and ban
that position for the letter unconditionally. -/
def yellowStep (g : PyStr) (acc : List (Char × Nat) × List (Char × List Nat))
    (y : Char × Nat) : List (Char × Nat) × List (Char × List Nat) :=
  ((match pyIdx g y.2 with
    | some c => if c.toLower = y.1 then counterInc acc.1 y.1 else acc.1
    | none => acc.1),
   bannedAdd acc.2 y.1 y.2)

/-- Minimum-count step of `update_constraints_from_feedback`: record the
per-round count when it beats the stored minimum. -/
def minStep (m : List (Char × Nat)) (e : Char × Nat) : List (Char × Nat) :=
  if e.2 > alookupD e.1 m 0 then dictInsert m e.1 e.2 else m

/-- `update_constraints_from_feedback`: fold one round of feedback into the
global constraint state. The greens map is this round's own (not the
accumulated one); the global fixed-positions map is not touched here. -/
def update_constraints_from_feedback (guess : PyStr) (greens : List (Nat × Char))
    (yellows : List (Char × Nat)) (st : SolverState) : SolverState :=
  let g := lowerStr guess
  let gy0 := (pyEnumFrom 0 g).foldl (greensStep greens) []
  let gyb := yellows.foldl (yellowStep g) (gy0, st.banned)
  let mins1 := gyb.1.foldl minStep st.mins
  let greys := (pySet g).filter (fun ch => counterGet gyb.1 ch == 0)
  let excluded1 := greys.foldl setAdd st.excluded
  ⟨st.greens, mins1, gyb.2, excluded1⟩

/-- Green check loop of `candidate_ok`: `w[i]` raises when the position is
out of range. -/
def checkGreens (w : PyStr) : List (Nat × Char) → Option Bool
  | [] => some true
  | p :: rest =>
    match pyIdx w p.1 with
    | none => none
    | some c => if c ≠ p.2 then some false else checkGreens w rest

/-- Per-letter banned-index loop of `candidate_ok`. -/
def checkBannedIdxs (w : PyStr) (letter : Char) : List Nat → Option Bool
  | [] => some true
  | i :: rest =>
    match pyIdx w i with
    | none => none
    | some c => if c = letter then some false else checkBannedIdxs w letter rest

/-- Banned-positions loop of `candidate_ok`: each listed letter must occur
in the word, and at none of its banned indices. -/
def checkBanned (w : PyStr) : List (Char × List Nat) → Option Bool
  | [] => some true
  | p :: rest =>
    if p.1 ∈ w then
      match checkBannedIdxs w p.1 p.2 with
      | none => none
      | some false => some false
      | some true => checkBanned w rest
    else some false

/-- `candidate_ok`: test one word against the accumulated constraints. The
value `none` models an `IndexError` escaping from an out-of-range access. -/
def candidate_ok (word : PyStr) (st : SolverState) : Option Bool :=
  let w := lowerStr word
  match checkGreens w st.greens with
  | none => none
  | some false => some false
  | some true =>
    if st.excluded.any (fun ch => decide (ch ∈ w)) then some false
    else
      match checkBanned w st.banned with
      | none => none
      | some false => some false
      | some true =>
        some (st.mins.all (fun e => decide (e.2 ≤ pyCount w e.1)))

/-- `filter_candidates`: keep the words passing `candidate_ok`; an
`IndexError` inside any test aborts the whole comprehension. -/
def filter_candidates : List PyStr → SolverState → Option (List PyStr)
  | [], _ => some []
  | w :: rest, st =>
    match candidate_ok w st with
    | none => none
    | some b =>
      match filter_candidates rest st with
      | none => none
      | some out => some (if b then w :: out else out)

/-- Letter frequency over the candidate list: each word counts once per
distinct letter it contains. -/
def letterFreq (words : List PyStr) : List (Char × Nat) :=
  words.foldl (fun cnt w => (pySet w).foldl counterInc cnt) []

/-- Score of one word: the sum of inverse frequencies of its distinct
letters, in exact rational arithmetic. -/
def score (words : List PyStr) (w : PyStr) : ℚ :=
  ((pySet w).map (fun ch =>
    match alookup ch (letterFreq words) with
    | some c => (1 : ℚ) / (c : ℚ)
    | none => 0)).sum

/-- `score_by_letter_coverage`: score every word and sort them by
descending score with a stable sort. -/
def score_by_letter_coverage (words : List PyStr) : List (PyStr × ℚ) :=
  if words = [] then []
  else (words.map (fun w => (w, score words w))).mergeSort
    (fun a b => decide (b.2 ≤ a.2))

/-- `filter_by_length`: restrict the dictionary to the session word
length. -/
def filter_by_length (words : List PyStr) (len : Nat) : List PyStr :=
  words.filter (fun w => w.length == len)

/-- State carried by the interactive loop once the word length is fixed. -/
structure LoopState where
  current_words : List PyStr
  state : SolverState
deriving DecidableEq, Repr

/-- Outcome of one round of the interactive loop: leave the loop, reject
the round and re-prompt, crash on an uncaught `IndexError`, or accept. -/
inductive RoundResult where
  | quit (ls : LoopState)
  | rejected (ls : LoopState)
  | crashed
  | accepted (ls : LoopState)
deriving DecidableEq, Repr

/-- One accepted round of constraint accumulation as the loop performs it:
merge the round greens into the global fixed-positions map, then fold the
round feedback into the other structures. -/
def applyRoundFeedback (guess : PyStr) (greens_update : List (Nat × Char))
    (yellows : List (Char × Nat)) (st : SolverState) : SolverState :=
  update_constraints_from_feedback guess greens_update yellows
    ⟨dictUpdate st.greens greens_update, st.mins, st.banned, st.excluded⟩

/-- One round of `interactive_loop` after the word length is established.
The three inputs arrive already stripped, as the loop strips each prompt.
Note the global greens map is merged before the yellows are validated. -/
def round_step (word_len : Nat) (ls : LoopState) (guess gp yp : PyStr) :
    RoundResult :=
  if lowerStr guess = ['q'] ∨ lowerStr guess = ['q', 'u', 'i', 't'] ∨
      lowerStr guess = ['e', 'x', 'i', 't'] then .quit ls
  else if ¬ (guess ≠ [] ∧ guess.all Char.isAlpha) then .rejected ls
  else if guess.length ≠ word_len then .rejected ls
  else if gp.length ≠ word_len then .rejected ls
  else
    match parse_greens_pattern gp with
    | .error _ => .rejected ls
    | .ok greens_update =>
      match parse_yellows yp word_len with
      | .error _ => .rejected
          ⟨ls.current_words,
           ⟨dictUpdate ls.state.greens greens_update, ls.state.mins,
            ls.state.banned, ls.state.excluded⟩⟩
      | .ok yellows =>
        match filter_candidates ls.current_words
            (applyRoundFeedback guess greens_update yellows ls.state) with
        | none => .crashed
        | some ws =>
          .accepted ⟨ws, applyRoundFeedback guess greens_update yellows ls.state⟩

/-- One round of feedback data. -/
structure Round where
  guess : PyStr
  greens : List (Nat × Char)
  yellows : List (Char × Nat)

/-- Fold a sequence of rounds over the constraint state. -/
def applyRounds (st : SolverState) : List Round → SolverState
  | [] => st
  | r :: rest => applyRounds (applyRoundFeedback r.guess r.greens r.yellows st) rest

/-! Basic lemmas about the dictionary and set operations. -/

/-- Keys of an association list. -/
def keysOf (d : List (α × β)) : List α := d.map Prod.fst

theorem alookup_nil [DecidableEq α] (k : α) :
    alookup k ([] : List (α × β)) = none := rfl

theorem alookup_cons [DecidableEq α] (k : α) (p : α × β) (rest : List (α × β)) :
    alookup k (p :: rest) = if p.1 = k then some p.2 else alookup k rest := rfl

theorem mapAt_cons [DecidableEq α] (p : α × β) (rest : List (α × β)) (k : α)
    (g : β → β) :
    mapAt (p :: rest) k g =
      (if p.1 = k then (p.1, g p.2) else p) :: mapAt rest k g := by
  unfold mapAt
  rw [List.map_cons]

theorem eq_none_of_not_isSome {o : Option β} (h : ¬ o.isSome = true) : o = none := by
  rcases o with _ | w
  · rfl
  · exact absurd rfl h

theorem alookup_append_none [DecidableEq α] (d e : List (α × β)) (k : α)
    (h : alookup k d = none) : alookup k (d ++ e) = alookup k e := by
  induction d with
  | nil => rfl
  | cons p rest ih =>
    rw [alookup_cons] at h
    by_cases hp : p.1 = k
    · simp [hp] at h
    · rw [if_neg hp] at h
      rw [List.cons_append, alookup_cons, if_neg hp]
      exact ih h

theorem alookup_append_single_ne [DecidableEq α] (d : List (α × β)) (k k' : α)
    (v : β) (h : k' ≠ k) : alookup k' (d ++ [(k, v)]) = alookup k' d := by
  induction d with
  | nil =>
    rw [List.nil_append, alookup_cons, alookup_nil]
    apply if_neg
    intro hq
    exact h (by simpa using hq.symm)
  | cons p rest ih =>
    rw [List.cons_append, alookup_cons, alookup_cons]
    by_cases hp : p.1 = k'
    · rw [if_pos hp, if_pos hp]
    · rw [if_neg hp, if_neg hp, ih]

theorem alookup_mapAt_self [DecidableEq α] (d : List (α × β)) (k : α) (g : β → β) :
    alookup k (mapAt d k g) = (alookup k d).map g := by
  induction d with
  | nil => rfl
  | cons p rest ih =>
    rw [mapAt_cons]
    by_cases h : p.1 = k
    · rw [if_pos h, alookup_cons, alookup_cons]
      simp [h]
    · rw [if_neg h, alookup_cons, alookup_cons, if_neg h, if_neg h, ih]

theorem alookup_mapAt_ne [DecidableEq α] (d : List (α × β)) (k k' : α) (g : β → β)
    (h : k' ≠ k) : alookup k' (mapAt d k g) = alookup k' d := by
  induction d with
  | nil => rfl
  | cons p rest ih =>
    rw [mapAt_cons]
    by_cases hp : p.1 = k
    · have hk : ¬ p.1 = k' := fun hq => h (hq.symm.trans hp)
      rw [if_pos hp]
      simp [alookup_cons, hk, ih]
    · rw [if_neg hp, alookup_cons, alookup_cons, ih]

theorem keysOf_nil : keysOf ([] : List (α × β)) = [] := rfl

theorem keysOf_cons (p : α × β) (rest : List (α × β)) :
    keysOf (p :: rest) = p.1 :: keysOf rest := rfl

theorem keysOf_mapAt [DecidableEq α] (d : List (α × β)) (k : α) (g : β → β) :
    keysOf (mapAt d k g) = keysOf d := by
  induction d with
  | nil => rfl
  | cons p rest ih =>
    rw [mapAt_cons]
    by_cases hp : p.1 = k
    · rw [if_pos hp, keysOf_cons, keysOf_cons, ih]
    · rw [if_neg hp, keysOf_cons, keysOf_cons, ih]

theorem alookup_dictInsert_self [DecidableEq α] (d : List (α × β)) (k : α) (v : β) :
    alookup k (dictInsert d k v) = some v := by
  unfold dictInsert
  by_cases hs : (alookup k d).isSome
  · rcases Option.isSome_iff_exists.mp hs with ⟨w, hw⟩
    rw [if_pos hs, alookup_mapAt_self, hw]
    rfl
  · rw [if_neg hs, alookup_append_none _ _ _ (eq_none_of_not_isSome hs),
      alookup_cons]
    simp

theorem alookup_dictInsert_ne [DecidableEq α] (d : List (α × β)) (k k' : α) (v : β)
    (h : k' ≠ k) : alookup k' (dictInsert d k v) = alookup k' d := by
  unfold dictInsert
  by_cases hs : (alookup k d).isSome
  · rw [if_pos hs]
    exact alookup_mapAt_ne _ _ _ _ h
  · rw [if_neg hs]
    exact alookup_append_single_ne _ _ _ _ h

theorem mem_keysOf_dictInsert [DecidableEq α] (d : List (α × β)) (k k' : α) (v : β)
    (h : k' ∈ keysOf d) : k' ∈ keysOf (dictInsert d k v) := by
  unfold dictInsert
  by_cases hs : (alookup k d).isSome
  · rw [if_pos hs, keysOf_mapAt]
    exact h
  · rw [if_neg hs]
    unfold keysOf
    rw [List.map_append, List.mem_append]
    exact Or.inl h

theorem mem_keysOf_of_dictInsert [DecidableEq α] (d : List (α × β)) (k k' : α)
    (v : β) (h : k' ∈ keysOf (dictInsert d k v)) : k' ∈ keysOf d ∨ k' = k := by
  unfold dictInsert at h
  by_cases hs : (alookup k d).isSome
  · rw [if_pos hs, keysOf_mapAt] at h
    exact Or.inl h
  · rw [if_neg hs] at h
    unfold keysOf at h
    rw [List.map_append, List.mem_append] at h
    rcases h with h | h
    · exact Or.inl h
    · simp at h
      exact Or.inr h

theorem counterGet_counterInc_self [DecidableEq α] (c : List (α × Nat)) (x : α) :
    counterGet (counterInc c x) x = counterGet c x + 1 := by
  unfold counterInc counterGet alookupD
  by_cases hs : (alookup x c).isSome
  · rcases Option.isSome_iff_exists.mp hs with ⟨w, hw⟩
    rw [if_pos hs, alookup_mapAt_self, hw]
    rfl
  · rw [if_neg hs, alookup_append_none _ _ _ (eq_none_of_not_isSome hs),
      alookup_cons, eq_none_of_not_isSome hs]
    simp

theorem counterGet_counterInc_ne [DecidableEq α] (c : List (α × Nat)) (x x' : α)
    (h : x' ≠ x) : counterGet (counterInc c x) x' = counterGet c x' := by
  unfold counterInc counterGet alookupD
  by_cases hs : (alookup x c).isSome
  · rw [if_pos hs, alookup_mapAt_ne _ _ _ _ h]
  · rw [if_neg hs, alookup_append_single_ne _ _ _ _ h]

theorem counterGet_counterInc (c : List (Char × Nat)) (x x' : Char) :
    counterGet (counterInc c x) x' =
      counterGet c x' + (if x' = x then 1 else 0) := by
  by_cases h : x' = x
  · subst h
    simp [counterGet_counterInc_self]
  · simp [counterGet_counterInc_ne _ _ _ h, h]

theorem mem_keysOf_counterInc [DecidableEq α] (c : List (α × Nat)) (x x' : α)
    (h : x' ∈ keysOf c) : x' ∈ keysOf (counterInc c x) := by
  unfold counterInc
  by_cases hs : (alookup x c).isSome
  · rw [if_pos hs, keysOf_mapAt]
    exact h
  · rw [if_neg hs]
    unfold keysOf
    rw [List.map_append, List.mem_append]
    exact Or.inl h

theorem bannedGet_bannedAdd_self (b : List (Char × List Nat)) (l : Char) (idx : Nat) :
    (alookup l (bannedAdd b l idx)).getD [] =
      setAdd ((alookup l b).getD []) idx := by
  unfold bannedAdd
  by_cases hs : (alookup l b).isSome
  · rcases Option.isSome_iff_exists.mp hs with ⟨w, hw⟩
    rw [if_pos hs, alookup_mapAt_self, hw]
    rfl
  · rw [if_neg hs, alookup_append_none _ _ _ (eq_none_of_not_isSome hs),
      alookup_cons, eq_none_of_not_isSome hs]
    simp [setAdd]

theorem alookup_bannedAdd_ne (b : List (Char × List Nat)) (l l' : Char) (idx : Nat)
    (h : l' ≠ l) : alookup l' (bannedAdd b l idx) = alookup l' b := by
  unfold bannedAdd
  by_cases hs : (alookup l b).isSome
  · rw [if_pos hs]
    exact alookup_mapAt_ne _ _ _ _ h
  · rw [if_neg hs]
    exact alookup_append_single_ne _ _ _ _ h

theorem mem_keysOf_bannedAdd (b : List (Char × List Nat)) (l l' : Char) (idx : Nat)
    (h : l' ∈ keysOf b) : l' ∈ keysOf (bannedAdd b l idx) := by
  unfold bannedAdd
  by_cases hs : (alookup l b).isSome
  · rw [if_pos hs, keysOf_mapAt]
    exact h
  · rw [if_neg hs]
    unfold keysOf
    rw [List.map_append, List.mem_append]
    exact Or.inl h

theorem mem_setAdd [DecidableEq α] (s : List α) (x y : α) :
    y ∈ setAdd s x ↔ y ∈ s ∨ y = x := by
  unfold setAdd
  by_cases h : x ∈ s
  · rw [if_pos h]
    constructor
    · exact Or.inl
    · rintro (hy | rfl) <;> assumption
  · rw [if_neg h]
    simp

theorem mem_foldl_setAdd [DecidableEq α] (l : List α) (s : List α) (y : α) :
    y ∈ l.foldl setAdd s ↔ y ∈ s ∨ y ∈ l := by
  induction l generalizing s with
  | nil => simp
  | cons a rest ih =>
    rw [List.foldl_cons, ih, mem_setAdd, List.mem_cons]
    tauto

theorem mem_pySet [DecidableEq α] (l : List α) (y : α) :
    y ∈ pySet l ↔ y ∈ l := by
  unfold pySet
  rw [mem_foldl_setAdd]
  simp

theorem nodup_setAdd [DecidableEq α] (s : List α) (x : α) (h : s.Nodup) :
    (setAdd s x).Nodup := by
  unfold setAdd
  by_cases hx : x ∈ s
  · rw [if_pos hx]
    exact h
  · rw [if_neg hx]
    simp [List.nodup_append, h, hx]

theorem nodup_foldl_setAdd [DecidableEq α] (l : List α) (s : List α) (h : s.Nodup) :
    (l.foldl setAdd s).Nodup := by
  induction l generalizing s with
  | nil => simpa
  | cons a rest ih => exact ih _ (nodup_setAdd _ _ h)

theorem nodup_pySet [DecidableEq α] (l : List α) : (pySet l).Nodup :=
  nodup_foldl_setAdd _ _ List.nodup_nil

/-! Characterization of the constraint accumulator. -/

theorem alookup_isSome_iff_mem_keysOf [DecidableEq α] (d : List (α × β)) (k : α) :
    (alookup k d).isSome = true ↔ k ∈ keysOf d := by
  induction d with
  | nil => simp [alookup_nil, keysOf_nil]
  | cons p rest ih =>
    rw [alookup_cons, keysOf_cons, List.mem_cons]
    by_cases hp : p.1 = k
    · simp [hp]
    · rw [if_neg hp, ih]
      have : ¬ k = p.1 := fun hq => hp hq.symm
      simp [this]

theorem alookup_eq_none_of_not_mem_keysOf [DecidableEq α] (d : List (α × β))
    (k : α) (h : k ∉ keysOf d) : alookup k d = none := by
  apply eq_none_of_not_isSome
  rw [alookup_isSome_iff_mem_keysOf]
  exact h

theorem nodup_keysOf_counterInc [DecidableEq α] (c : List (α × Nat)) (x : α)
    (h : (keysOf c).Nodup) : (keysOf (counterInc c x)).Nodup := by
  unfold counterInc
  by_cases hs : (alookup x c).isSome
  · rw [if_pos hs, keysOf_mapAt]
    exact h
  · rw [if_neg hs]
    have hx : x ∉ keysOf c := fun hm =>
      hs ((alookup_isSome_iff_mem_keysOf c x).mpr hm)
    unfold keysOf
    rw [List.map_append, List.nodup_append]
    refine ⟨h, by simp, ?_⟩
    intro y hy hmem
    simp at hmem
    subst hmem
    exact hx hy

theorem greensStep_none (greens : List (Nat × Char)) (c : List (Char × Nat))
    (p : Nat × Char) (hg : alookup p.1 greens = none) :
    greensStep greens c p = c := by
  unfold greensStep
  rw [hg]

theorem greensStep_some (greens : List (Nat × Char)) (c : List (Char × Nat))
    (p : Nat × Char) (gch : Char) (hg : alookup p.1 greens = some gch) :
    greensStep greens c p = if gch.toLower = p.2 then counterInc c p.2 else c := by
  unfold greensStep
  rw [hg]

theorem yellowStep_fst_none (g : PyStr)
    (acc : List (Char × Nat) × List (Char × List Nat)) (y : Char × Nat)
    (hg : pyIdx g y.2 = none) : (yellowStep g acc y).1 = acc.1 := by
  unfold yellowStep
  rw [hg]

theorem yellowStep_fst_some (g : PyStr)
    (acc : List (Char × Nat) × List (Char × List Nat)) (y : Char × Nat)
    (c0 : Char) (hg : pyIdx g y.2 = some c0) :
    (yellowStep g acc y).1 =
      if c0.toLower = y.1 then counterInc acc.1 y.1 else acc.1 := by
  unfold yellowStep
  rw [hg]

theorem yellowStep_snd (g : PyStr)
    (acc : List (Char × Nat) × List (Char × List Nat)) (y : Char × Nat) :
    (yellowStep g acc y).2 = bannedAdd acc.2 y.1 y.2 := rfl

theorem yellowStep_eta (g : PyStr)
    (acc : List (Char × Nat) × List (Char × List Nat)) (y : Char × Nat) :
    yellowStep g acc y = ((yellowStep g acc y).1, bannedAdd acc.2 y.1 y.2) := rfl

/-- Green contribution to the per-round count for one letter. -/
def greenCount (guess : PyStr) (greens : List (Nat × Char)) (ch : Char) : Nat :=
  (pyEnumFrom 0 (lowerStr guess)).countP
    (fun p => decide ((alookup p.1 greens).map Char.toLower = some p.2 ∧ p.2 = ch))

/-- Yellow contribution to the per-round count for one letter. -/
def yellowCount (guess : PyStr) (yellows : List (Char × Nat)) (ch : Char) : Nat :=
  yellows.countP
    (fun y => decide ((pyIdx (lowerStr guess) y.2).map Char.toLower = some y.1 ∧
      y.1 = ch))

/-- Per-round fixed-or-misplaced count for a letter: one per matching green
position plus one per matching yellow entry. -/
def roundCount (guess : PyStr) (greens : List (Nat × Char))
    (yellows : List (Char × Nat)) (ch : Char) : Nat :=
  greenCount guess greens ch + yellowCount guess yellows ch

theorem counterGet_greensFold (greens : List (Nat × Char)) (l : List (Nat × Char))
    (c : List (Char × Nat)) (ch : Char) :
    counterGet (l.foldl (greensStep greens) c) ch =
      counterGet c ch + l.countP
        (fun p => decide ((alookup p.1 greens).map Char.toLower = some p.2 ∧
          p.2 = ch)) := by
  induction l generalizing c with
  | nil => simp
  | cons p rest ih =>
    rw [List.foldl_cons, List.countP_cons]
    rcases hg : alookup p.1 greens with _ | gch
    · rw [greensStep_none _ _ _ hg, ih]
      simp [hg]
    · rw [greensStep_some _ _ _ _ hg]
      by_cases he : gch.toLower = p.2
      · rw [if_pos he, ih, counterGet_counterInc]
        by_cases hc : p.2 = ch
        · simp [hg, he, hc]
          omega
        · have hcc : ¬ ch = p.2 := fun hq => hc hq.symm
          simp [hg, he, hc, hcc]
      · rw [if_neg he, ih]
        simp [hg, he]

theorem yellowFold_fst (g : PyStr) (ys : List (Char × Nat))
    (c : List (Char × Nat)) (b : List (Char × List Nat)) (ch : Char) :
    counterGet ((ys.foldl (yellowStep g) (c, b)).1) ch =
      counterGet c ch + ys.countP
        (fun y => decide ((pyIdx g y.2).map Char.toLower = some y.1 ∧
          y.1 = ch)) := by
  induction ys generalizing c b with
  | nil => simp
  | cons y rest ih =>
    rw [List.foldl_cons, List.countP_cons, yellowStep_eta]
    rcases hg : pyIdx g y.2 with _ | c0
    · rw [yellowStep_fst_none _ _ _ hg, ih]
      simp [hg]
    · rw [yellowStep_fst_some _ _ _ _ hg]
      by_cases he : c0.toLower = y.1
      · rw [if_pos he, ih, counterGet_counterInc]
        by_cases hc : y.1 = ch
        · simp [hg, he, hc]
          omega
        · have hcc : ¬ ch = y.1 := fun hq => hc hq.symm
          simp [hg, he, hc, hcc]
      · rw [if_neg he, ih]
        simp [hg, he]

theorem yellowFold_snd (g : PyStr) (ys : List (Char × Nat))
    (c : List (Char × Nat)) (b : List (Char × List Nat)) (ch : Char) (i : Nat) :
    i ∈ (alookup ch ((ys.foldl (yellowStep g) (c, b)).2)).getD [] ↔
      i ∈ (alookup ch b).getD [] ∨ (ch, i) ∈ ys := by
  induction ys generalizing c b with
  | nil => simp
  | cons y rest ih =>
    rw [List.foldl_cons, yellowStep_eta, ih]
    by_cases hc : ch = y.1
    · subst hc
      rw [bannedGet_bannedAdd_self, mem_setAdd]
      constructor
      · rintro ((hm | rfl) | hm)
        · exact Or.inl hm
        · exact Or.inr (List.mem_cons_self _ _)
        · exact Or.inr (List.mem_cons_of_mem _ hm)
      · rintro (hm | hm)
        · exact Or.inl (Or.inl hm)
        · rcases List.mem_cons.mp hm with hq | hq
          · exact Or.inl (Or.inr (congrArg Prod.snd hq))
          · exact Or.inr hq
    · rw [alookup_bannedAdd_ne _ _ _ _ hc]
      constructor
      · rintro (hm | hm)
        · exact Or.inl hm
        · exact Or.inr (List.mem_cons_of_mem _ hm)
      · rintro (hm | hm)
        · exact Or.inl hm
        · rcases List.mem_cons.mp hm with hq | hq
          · exact absurd (congrArg Prod.fst hq) hc
          · exact Or.inr hq

theorem nodup_keysOf_greensFold (greens : List (Nat × Char))
    (l : List (Nat × Char)) (c : List (Char × Nat))
    (h : (keysOf c).Nodup) : (keysOf (l.foldl (greensStep greens) c)).Nodup := by
  induction l generalizing c with
  | nil => exact h
  | cons p rest ih =>
    rw [List.foldl_cons]
    apply ih
    rcases hg : alookup p.1 greens with _ | gch
    · rw [greensStep_none _ _ _ hg]
      exact h
    · rw [greensStep_some _ _ _ _ hg]
      by_cases he : gch.toLower = p.2
      · rw [if_pos he]
        exact nodup_keysOf_counterInc _ _ h
      · rw [if_neg he]
        exact h

theorem nodup_keysOf_yellowFold (g : PyStr) (ys : List (Char × Nat))
    (c : List (Char × Nat)) (b : List (Char × List Nat))
    (h : (keysOf c).Nodup) :
    (keysOf ((ys.foldl (yellowStep g) (c, b)).1)).Nodup := by
  induction ys generalizing c b with
  | nil => exact h
  | cons y rest ih =>
    rw [List.foldl_cons, yellowStep_eta]
    apply ih
    rcases hg : pyIdx g y.2 with _ | c0
    · rw [yellowStep_fst_none _ _ _ hg]
      exact h
    · rw [yellowStep_fst_some _ _ _ _ hg]
      by_cases he : c0.toLower = y.1
      · rw [if_pos he]
        exact nodup_keysOf_counterInc _ _ h
      · rw [if_neg he]
        exact h

theorem alookupD_minStep_self (m : List (Char × Nat)) (e : Char × Nat) :
    alookupD e.1 (minStep m e) 0 = max (alookupD e.1 m 0) e.2 := by
  unfold minStep
  by_cases hgt : e.2 > alookupD e.1 m 0
  · rw [if_pos hgt]
    unfold alookupD at hgt ⊢
    rw [alookup_dictInsert_self]
    simp only [Option.getD_some]
    omega
  · rw [if_neg hgt]
    omega

theorem alookupD_minStep_ne (m : List (Char × Nat)) (e : Char × Nat) (ch : Char)
    (h : ch ≠ e.1) : alookupD ch (minStep m e) 0 = alookupD ch m 0 := by
  unfold minStep
  by_cases hgt : e.2 > alookupD e.1 m 0
  · rw [if_pos hgt]
    unfold alookupD
    rw [alookup_dictInsert_ne _ _ _ _ h]
  · rw [if_neg hgt]

theorem alookupD_minsFold (entries : List (Char × Nat)) (m : List (Char × Nat))
    (ch : Char) (hnd : (keysOf entries).Nodup) :
    alookupD ch (entries.foldl minStep m) 0 =
      max (alookupD ch m 0) (alookupD ch entries 0) := by
  induction entries generalizing m with
  | nil => simp [alookupD, alookup_nil]
  | cons e rest ih =>
    rw [keysOf_cons, List.nodup_cons] at hnd
    rw [List.foldl_cons, ih _ hnd.2]
    unfold alookupD
    rw [alookup_cons]
    by_cases hc : e.1 = ch
    · subst hc
      have hr : alookup e.1 rest = none :=
        alookup_eq_none_of_not_mem_keysOf _ _ hnd.1
      rw [if_pos rfl, hr]
      have := alookupD_minStep_self m e
      unfold alookupD at this
      rw [this]
      simp
    · have := alookupD_minStep_ne m e ch (fun hq => hc hq.symm)
      unfold alookupD at this
      rw [if_neg hc, this]

theorem counterGet_roundCounter (guess : PyStr) (greens : List (Nat × Char))
    (yellows : List (Char × Nat)) (b : List (Char × List Nat)) (ch : Char) :
    counterGet ((yellows.foldl (yellowStep (lowerStr guess))
      ((pyEnumFrom 0 (lowerStr guess)).foldl (greensStep greens) [], b)).1) ch =
      roundCount guess greens yellows ch := by
  rw [yellowFold_fst, counterGet_greensFold]
  unfold roundCount greenCount yellowCount counterGet alookupD
  rw [alookup_nil]
  simp

theorem nodup_keysOf_roundCounter (guess : PyStr) (greens : List (Nat × Char))
    (yellows : List (Char × Nat)) (b : List (Char × List Nat)) :
    (keysOf ((yellows.foldl (yellowStep (lowerStr guess))
      ((pyEnumFrom 0 (lowerStr guess)).foldl (greensStep greens) [], b)).1)).Nodup :=
  nodup_keysOf_yellowFold _ _ _ _
    (nodup_keysOf_greensFold _ _ _ (by simp [keysOf_nil]))

theorem minGet_update (guess : PyStr) (greens : List (Nat × Char))
    (yellows : List (Char × Nat)) (st : SolverState) (ch : Char) :
    minGet (update_constraints_from_feedback guess greens yellows st) ch =
      max (minGet st ch) (roundCount guess greens yellows ch) := by
  show alookupD ch (((yellows.foldl (yellowStep (lowerStr guess))
      ((pyEnumFrom 0 (lowerStr guess)).foldl (greensStep greens) [],
        st.banned)).1).foldl minStep st.mins) 0 = _
  rw [alookupD_minsFold _ _ _ (nodup_keysOf_roundCounter guess greens yellows _)]
  have h2 := counterGet_roundCounter guess greens yellows st.banned ch
  unfold counterGet at h2
  rw [h2]
  rfl

theorem mem_bannedGet_update (guess : PyStr) (greens : List (Nat × Char))
    (yellows : List (Char × Nat)) (st : SolverState) (ch : Char) (i : Nat) :
    i ∈ bannedGet (update_constraints_from_feedback guess greens yellows st) ch ↔
      i ∈ bannedGet st ch ∨ (ch, i) ∈ yellows := by
  show i ∈ (alookup ch ((yellows.foldl (yellowStep (lowerStr guess))
      ((pyEnumFrom 0 (lowerStr guess)).foldl (greensStep greens) [],
        st.banned)).2)).getD [] ↔ _
  exact yellowFold_snd _ _ _ _ _ _

theorem mem_excluded_update (guess : PyStr) (greens : List (Nat × Char))
    (yellows : List (Char × Nat)) (st : SolverState) (ch : Char) :
    ch ∈ (update_constraints_from_feedback guess greens yellows st).excluded ↔
      ch ∈ st.excluded ∨ (ch ∈ lowerStr guess ∧
        roundCount guess greens yellows ch = 0) := by
  show ch ∈ (((pySet (lowerStr guess)).filter
      (fun c => counterGet ((yellows.foldl (yellowStep (lowerStr guess))
        ((pyEnumFrom 0 (lowerStr guess)).foldl (greensStep greens) [],
          st.banned)).1) c == 0)).foldl setAdd st.excluded) ↔ _
  rw [mem_foldl_setAdd, List.mem_filter]
  rw [mem_pySet]
  constructor
  · rintro (hm | ⟨hg, hz⟩)
    · exact Or.inl hm
    · refine Or.inr ⟨hg, ?_⟩
      have := counterGet_roundCounter guess greens yellows st.banned ch
      rw [← this]
      simpa using hz
  · rintro (hm | ⟨hg, hz⟩)
    · exact Or.inl hm
    · refine Or.inr ⟨hg, ?_⟩
      have := counterGet_roundCounter guess greens yellows st.banned ch
      rw [← this] at hz
      simpa using hz

theorem greens_update_eq (guess : PyStr) (greens : List (Nat × Char))
    (yellows : List (Char × Nat)) (st : SolverState) :
    (update_constraints_from_feedback guess greens yellows st).greens =
      st.greens := rfl

/-! Characterization of the candidate filter. -/

/-- The four consistency conditions as the specification states them: fixed
positions hold their letters, no excluded letter occurs, each letter with
banned positions occurs but not at a banned position, and minimum counts
are met. -/
def consistentSpec (word : PyStr) (st : SolverState) : Prop :=
  (∀ p ∈ st.greens, pyIdx (lowerStr word) p.1 = some p.2) ∧
  (∀ ch ∈ st.excluded, ch ∉ lowerStr word) ∧
  (∀ p ∈ st.banned, p.1 ∈ lowerStr word ∧
    ∀ i ∈ p.2, pyIdx (lowerStr word) i ≠ some p.1) ∧
  (∀ e ∈ st.mins, e.2 ≤ pyCount (lowerStr word) e.1)

theorem lowerStr_length (w : PyStr) : (lowerStr w).length = w.length :=
  List.length_map w Char.toLower

theorem pyIdx_isSome_of_lt (w : PyStr) (i : Nat) (h : i < w.length) :
    (pyIdx w i).isSome = true := by
  induction w generalizing i with
  | nil => simp at h
  | cons c rest ih =>
    cases i with
    | zero => rfl
    | succ j => exact ih j (by simpa using h)

theorem checkGreens_cons_none (w : PyStr) (p : Nat × Char)
    (rest : List (Nat × Char)) (hi : pyIdx w p.1 = none) :
    checkGreens w (p :: rest) = none := by
  unfold checkGreens
  rw [hi]

theorem checkGreens_cons_some (w : PyStr) (p : Nat × Char)
    (rest : List (Nat × Char)) (c : Char) (hi : pyIdx w p.1 = some c) :
    checkGreens w (p :: rest) =
      if c ≠ p.2 then some false else checkGreens w rest := by
  simp only [checkGreens]
  rw [hi]

theorem checkGreens_eq_true_iff (w : PyStr) (l : List (Nat × Char)) :
    checkGreens w l = some true ↔ ∀ p ∈ l, pyIdx w p.1 = some p.2 := by
  induction l with
  | nil => simp [checkGreens]
  | cons p rest ih =>
    rcases hi : pyIdx w p.1 with _ | c
    · rw [checkGreens_cons_none _ _ _ hi]
      constructor
      · intro h
        exact absurd h (by simp)
      · intro h
        have := h p (List.mem_cons_self _ _)
        rw [hi] at this
        exact absurd this (by simp)
    · rw [checkGreens_cons_some _ _ _ _ hi]
      by_cases he : c = p.2
      · rw [if_neg (fun hq => hq he)]
        simp [List.forall_mem_cons, hi, he, ih]
      · rw [if_pos he]
        simp [List.forall_mem_cons, hi, he]

theorem checkGreens_isSome (w : PyStr) (l : List (Nat × Char))
    (h : ∀ p ∈ l, p.1 < w.length) : (checkGreens w l).isSome = true := by
  induction l with
  | nil => rfl
  | cons p rest ih =>
    rcases hi : pyIdx w p.1 with _ | c
    · have hlt := pyIdx_isSome_of_lt w p.1 (h p (List.mem_cons_self _ _))
      rw [hi] at hlt
      exact absurd hlt (by simp)
    · rw [checkGreens_cons_some _ _ _ _ hi]
      by_cases he : c ≠ p.2
      · rw [if_pos he]
        rfl
      · rw [if_neg he]
        exact ih (fun q hq => h q (List.mem_cons_of_mem _ hq))

theorem checkBannedIdxs_cons_none (w : PyStr) (letter : Char) (i : Nat)
    (rest : List Nat) (hi : pyIdx w i = none) :
    checkBannedIdxs w letter (i :: rest) = none := by
  unfold checkBannedIdxs
  rw [hi]

theorem checkBannedIdxs_cons_some (w : PyStr) (letter : Char) (i : Nat)
    (rest : List Nat) (c : Char) (hi : pyIdx w i = some c) :
    checkBannedIdxs w letter (i :: rest) =
      if c = letter then some false else checkBannedIdxs w letter rest := by
  simp only [checkBannedIdxs]
  rw [hi]

theorem checkBannedIdxs_eq_true_iff (w : PyStr) (letter : Char) (l : List Nat)
    (hb : ∀ i ∈ l, i < w.length) :
    checkBannedIdxs w letter l = some true ↔
      ∀ i ∈ l, pyIdx w i ≠ some letter := by
  induction l with
  | nil => simp [checkBannedIdxs]
  | cons i rest ih =>
    rcases hi : pyIdx w i with _ | c
    · have hlt := pyIdx_isSome_of_lt w i (hb i (List.mem_cons_self _ _))
      rw [hi] at hlt
      exact absurd hlt (by simp)
    · rw [checkBannedIdxs_cons_some _ _ _ _ _ hi]
      by_cases he : c = letter
      · rw [if_pos he]
        constructor
        · intro h
          exact absurd h (by simp)
        · intro h
          have := h i (List.mem_cons_self _ _)
          rw [hi, he] at this
          exact absurd rfl this
      · rw [if_neg he]
        rw [ih (fun j hj => hb j (List.mem_cons_of_mem _ hj))]
        simp only [List.forall_mem_cons, hi]
        constructor
        · intro h
          refine ⟨fun hq => he (by simpa using hq), h⟩
        · intro h
          exact h.2

theorem checkBannedIdxs_false_of_eq_true (w : PyStr) (letter : Char)
    (l : List Nat) (h : checkBannedIdxs w letter l = some true) :
    ∀ i ∈ l, pyIdx w i ≠ some letter := by
  induction l with
  | nil => simp
  | cons i rest ih =>
    rcases hi : pyIdx w i with _ | c
    · rw [checkBannedIdxs_cons_none _ _ _ _ hi] at h
      exact absurd h (by simp)
    · rw [checkBannedIdxs_cons_some _ _ _ _ _ hi] at h
      by_cases he : c = letter
      · rw [if_pos he] at h
        exact absurd h (by simp)
      · rw [if_neg he] at h
        intro j hj
        rcases List.mem_cons.mp hj with hq | hq
        · subst hq
          rw [hi]
          intro hq2
          exact he (by simpa using hq2)
        · exact ih h j hq

theorem checkBannedIdxs_isSome (w : PyStr) (letter : Char) (l : List Nat)
    (hb : ∀ i ∈ l, i < w.length) :
    (checkBannedIdxs w letter l).isSome = true := by
  induction l with
  | nil => rfl
  | cons i rest ih =>
    rcases hi : pyIdx w i with _ | c
    · have hlt := pyIdx_isSome_of_lt w i (hb i (List.mem_cons_self _ _))
      rw [hi] at hlt
      exact absurd hlt (by simp)
    · rw [checkBannedIdxs_cons_some _ _ _ _ _ hi]
      by_cases he : c = letter
      · rw [if_pos he]
        rfl
      · rw [if_neg he]
        exact ih (fun j hj => hb j (List.mem_cons_of_mem _ hj))

theorem checkBanned_cons_notmem (w : PyStr) (p : Char × List Nat)
    (rest : List (Char × List Nat)) (h : p.1 ∉ w) :
    checkBanned w (p :: rest) = some false := by
  unfold checkBanned
  rw [if_neg h]

theorem checkBanned_cons_mem_none (w : PyStr) (p : Char × List Nat)
    (rest : List (Char × List Nat)) (h : p.1 ∈ w)
    (hi : checkBannedIdxs w p.1 p.2 = none) :
    checkBanned w (p :: rest) = none := by
  unfold checkBanned
  rw [if_pos h, hi]

theorem checkBanned_cons_mem_false (w : PyStr) (p : Char × List Nat)
    (rest : List (Char × List Nat)) (h : p.1 ∈ w)
    (hi : checkBannedIdxs w p.1 p.2 = some false) :
    checkBanned w (p :: rest) = some false := by
  unfold checkBanned
  rw [if_pos h, hi]

theorem checkBanned_cons_mem_true (w : PyStr) (p : Char × List Nat)
    (rest : List (Char × List Nat)) (h : p.1 ∈ w)
    (hi : checkBannedIdxs w p.1 p.2 = some true) :
    checkBanned w (p :: rest) = checkBanned w rest := by
  simp only [checkBanned]
  rw [if_pos h, hi]

theorem checkBanned_eq_true_iff (w : PyStr) (l : List (Char × List Nat))
    (hb : ∀ p ∈ l, ∀ i ∈ p.2, i < w.length) :
    checkBanned w l = some true ↔
      ∀ p ∈ l, p.1 ∈ w ∧ ∀ i ∈ p.2, pyIdx w i ≠ some p.1 := by
  induction l with
  | nil => simp [checkBanned]
  | cons p rest ih =>
    have hb1 : ∀ i ∈ p.2, i < w.length := hb p (List.mem_cons_self _ _)
    have hb2 : ∀ q ∈ rest, ∀ i ∈ q.2, i < w.length :=
      fun q hq => hb q (List.mem_cons_of_mem _ hq)
    by_cases hm : p.1 ∈ w
    · rcases hc : checkBannedIdxs w p.1 p.2 with _ | b
      · have hlt := checkBannedIdxs_isSome w p.1 p.2 hb1
        rw [hc] at hlt
        exact absurd hlt (by simp)
      · cases b
        · rw [checkBanned_cons_mem_false _ _ _ hm hc]
          rw [List.forall_mem_cons]
          constructor
          · intro h
            exact absurd h (by simp)
          · rintro ⟨⟨hw, hno⟩, hrest⟩
            have := (checkBannedIdxs_eq_true_iff w p.1 p.2 hb1).mpr hno
            rw [hc] at this
            exact absurd this (by simp)
        · rw [checkBanned_cons_mem_true _ _ _ hm hc, ih hb2,
            List.forall_mem_cons]
          have hno := checkBannedIdxs_false_of_eq_true w p.1 p.2 hc
          constructor
          · intro h
            exact ⟨⟨hm, hno⟩, h⟩
          · intro h
            exact h.2
    · rw [checkBanned_cons_notmem _ _ _ hm, List.forall_mem_cons]
      constructor
      · intro h
        exact absurd h (by simp)
      · rintro ⟨⟨hw, hno⟩, hrest⟩
        exact absurd hw hm

theorem checkBanned_isSome (w : PyStr) (l : List (Char × List Nat))
    (hb : ∀ p ∈ l, ∀ i ∈ p.2, i < w.length) :
    (checkBanned w l).isSome = true := by
  induction l with
  | nil => rfl
  | cons p rest ih =>
    have hb1 : ∀ i ∈ p.2, i < w.length := hb p (List.mem_cons_self _ _)
    have hb2 : ∀ q ∈ rest, ∀ i ∈ q.2, i < w.length :=
      fun q hq => hb q (List.mem_cons_of_mem _ hq)
    by_cases hm : p.1 ∈ w
    · rcases hc : checkBannedIdxs w p.1 p.2 with _ | b
      · have hlt := checkBannedIdxs_isSome w p.1 p.2 hb1
        rw [hc] at hlt
        exact absurd hlt (by simp)
      · cases b
        · rw [checkBanned_cons_mem_false _ _ _ hm hc]
          rfl
        · rw [checkBanned_cons_mem_true _ _ _ hm hc]
          exact ih hb2
    · rw [checkBanned_cons_notmem _ _ _ hm]
      rfl

theorem candidate_ok_expand (word : PyStr) (st : SolverState) :
    candidate_ok word st =
      match checkGreens (lowerStr word) st.greens with
      | none => none
      | some false => some false
      | some true =>
        if st.excluded.any (fun ch => decide (ch ∈ lowerStr word)) then some false
        else
          match checkBanned (lowerStr word) st.banned with
          | none => none
          | some false => some false
          | some true =>
            some (st.mins.all
              (fun e => decide (e.2 ≤ pyCount (lowerStr word) e.1))) := rfl

theorem excluded_any_iff (word : PyStr) (s : List Char) :
    s.any (fun ch => decide (ch ∈ lowerStr word)) = true ↔
      ∃ ch ∈ s, ch ∈ lowerStr word := by
  rw [List.any_eq_true]
  simp

theorem candidate_ok_eq_true_iff (word : PyStr) (st : SolverState)
    (hb : ∀ p ∈ st.banned, ∀ i ∈ p.2, i < word.length) :
    candidate_ok word st = some true ↔ consistentSpec word st := by
  have hb' : ∀ p ∈ st.banned, ∀ i ∈ p.2, i < (lowerStr word).length := by
    rw [lowerStr_length]
    exact hb
  rw [candidate_ok_expand]
  unfold consistentSpec
  rcases hcg : checkGreens (lowerStr word) st.greens with _ | b
  · constructor
    · intro h
      exact absurd h (by simp)
    · rintro ⟨hg, _⟩
      have := (checkGreens_eq_true_iff (lowerStr word) st.greens).mpr hg
      rw [hcg] at this
      exact absurd this (by simp)
  · cases b
    · constructor
      · intro h
        exact absurd h (by simp)
      · rintro ⟨hg, _⟩
        have := (checkGreens_eq_true_iff (lowerStr word) st.greens).mpr hg
        rw [hcg] at this
        exact absurd this (by simp)
    · have hgreens := (checkGreens_eq_true_iff (lowerStr word) st.greens).mp hcg
      by_cases he : st.excluded.any (fun ch => decide (ch ∈ lowerStr word)) = true
      · rw [if_pos he]
        rcases (excluded_any_iff word st.excluded).mp he with ⟨ch, hch, hchw⟩
        constructor
        · intro h
          exact absurd h (by simp)
        · rintro ⟨_, hex, _⟩
          exact absurd hchw (hex ch hch)
      · rw [if_neg he]
        have hex : ∀ ch ∈ st.excluded, ch ∉ lowerStr word := by
          intro ch hch hchw
          exact he ((excluded_any_iff word st.excluded).mpr ⟨ch, hch, hchw⟩)
        rcases hcb : checkBanned (lowerStr word) st.banned with _ | b2
        · have hlt := checkBanned_isSome (lowerStr word) st.banned hb'
          rw [hcb] at hlt
          exact absurd hlt (by simp)
        · cases b2
          · constructor
            · intro h
              exact absurd h (by simp)
            · rintro ⟨_, _, hban, _⟩
              have := (checkBanned_eq_true_iff (lowerStr word) st.banned hb').mpr hban
              rw [hcb] at this
              exact absurd this (by simp)
          · have hban := (checkBanned_eq_true_iff (lowerStr word) st.banned hb').mp hcb
            constructor
            · intro h
              have hall : st.mins.all
                  (fun e => decide (e.2 ≤ pyCount (lowerStr word) e.1)) = true := by
                have := Option.some.inj h
                exact this
              rw [List.all_eq_true] at hall
              refine ⟨hgreens, hex, hban, ?_⟩
              intro e hme
              simpa using hall e hme
            · rintro ⟨_, _, _, hmin⟩
              have hall : st.mins.all
                  (fun e => decide (e.2 ≤ pyCount (lowerStr word) e.1)) = true := by
                rw [List.all_eq_true]
                intro e hme
                simpa using hmin e hme
              rw [hall]

theorem candidate_ok_isSome (word : PyStr) (st : SolverState)
    (hg : ∀ p ∈ st.greens, p.1 < word.length)
    (hb : ∀ p ∈ st.banned, ∀ i ∈ p.2, i < word.length) :
    (candidate_ok word st).isSome = true := by
  have hg' : ∀ p ∈ st.greens, p.1 < (lowerStr word).length := by
    rw [lowerStr_length]
    exact hg
  have hb' : ∀ p ∈ st.banned, ∀ i ∈ p.2, i < (lowerStr word).length := by
    rw [lowerStr_length]
    exact hb
  rw [candidate_ok_expand]
  rcases hcg : checkGreens (lowerStr word) st.greens with _ | b
  · have hlt := checkGreens_isSome (lowerStr word) st.greens hg'
    rw [hcg] at hlt
    exact absurd hlt (by simp)
  · cases b
    · rfl
    · by_cases he : st.excluded.any (fun ch => decide (ch ∈ lowerStr word)) = true
      · rw [if_pos he]
        rfl
      · rw [if_neg he]
        rcases hcb : checkBanned (lowerStr word) st.banned with _ | b2
        · have hlt := checkBanned_isSome (lowerStr word) st.banned hb'
          rw [hcb] at hlt
          exact absurd hlt (by simp)
        · cases b2 <;> rfl

theorem filter_candidates_cons (w : PyStr) (rest : List PyStr) (st : SolverState) :
    filter_candidates (w :: rest) st =
      match candidate_ok w st with
      | none => none
      | some b =>
        match filter_candidates rest st with
        | none => none
        | some out => some (if b then w :: out else out) := rfl

theorem filter_candidates_spec (words : List PyStr) (st : SolverState)
    (out : List PyStr) (h : filter_candidates words st = some out) :
    out.Sublist words ∧ (∀ w ∈ out, candidate_ok w st = some true) ∧
      filter_candidates out st = some out := by
  induction words generalizing out with
  | nil =>
    have : out = [] := (Option.some.inj h).symm
    subst this
    exact ⟨List.Sublist.refl _, by simp, rfl⟩
  | cons w rest ih =>
    rw [filter_candidates_cons] at h
    rcases hc : candidate_ok w st with _ | b
    · rw [hc] at h
      exact absurd h (by simp)
    · rw [hc] at h
      rcases hf : filter_candidates rest st with _ | out'
      · rw [hf] at h
        exact absurd h (by simp)
      · rw [hf] at h
        have hout : (if b then w :: out' else out') = out := Option.some.inj h
        rcases ih out' hf with ⟨hsub, hall, hidem⟩
        cases b
        · rw [if_neg (by simp)] at hout
          subst hout
          exact ⟨hsub.cons _, hall, hidem⟩
        · rw [if_pos rfl] at hout
          subst hout
          refine ⟨hsub.cons₂ _, ?_, ?_⟩
          · intro v hv
            rcases List.mem_cons.mp hv with hq | hq
            · subst hq
              exact hc
            · exact hall v hq
          · rw [filter_candidates_cons, hc, hidem]
            rfl

/-! Characterization of the parsers. -/

theorem pyEnumFrom_cons (i : Nat) (c : Char) (rest : PyStr) :
    pyEnumFrom i (c :: rest) = (i, c) :: pyEnumFrom (i + 1) rest := rfl

/-- Mapping described by the specification: every non-placeholder position
of the stripped pattern maps to its lowercased letter. -/
def greensSpecMap (pattern : PyStr) : List (Nat × Char) :=
  (pyEnumFrom 0 (pyStrip pattern)).filterMap
    (fun p => if p.2 ≠ '.' ∧ p.2 ≠ '_' then some (p.1, p.2.toLower) else none)

theorem dictInsert_eq_append [DecidableEq α] (d : List (α × β)) (k : α) (v : β)
    (h : k ∉ keysOf d) : dictInsert d k v = d ++ [(k, v)] := by
  unfold dictInsert
  rw [if_neg (fun hs => h ((alookup_isSome_iff_mem_keysOf d k).mp hs))]

theorem parseGreensGo_ok (s : PyStr) (i : Nat) (out : List (Nat × Char))
    (hkeys : ∀ k ∈ keysOf out, k < i)
    (hgood : ∀ c ∈ s, (c = '.' ∨ c = '_') ∨ c.isAlpha) :
    parseGreensGo i s out = .ok (out ++ (pyEnumFrom i s).filterMap
      (fun p => if p.2 ≠ '.' ∧ p.2 ≠ '_' then some (p.1, p.2.toLower) else none)) := by
  induction s generalizing i out with
  | nil => simp [parseGreensGo, pyEnumFrom]
  | cons c rest ih =>
    simp only [parseGreensGo]
    by_cases hp : c = '.' ∨ c = '_'
    · rw [if_pos hp,
        ih (i + 1) out (fun k hk => Nat.lt_succ_of_lt (hkeys k hk))
          (fun d hd => hgood d (List.mem_cons_of_mem _ hd)),
        pyEnumFrom_cons]
      rcases hp with h | h <;> subst h <;> simp [List.filterMap_cons]
    · have ha : c.isAlpha := by
        rcases hgood c (List.mem_cons_self _ _) with h | h
        · exact absurd h hp
        · exact h
      rw [if_neg hp, if_pos ha]
      have hnotin : i ∉ keysOf out := fun hm => Nat.lt_irrefl i (hkeys i hm)
      rw [dictInsert_eq_append _ _ _ hnotin]
      have hkeys2 : ∀ k ∈ keysOf (out ++ [(i, c.toLower)]), k < i + 1 := by
        intro k hk
        unfold keysOf at hk
        rw [List.map_append, List.mem_append] at hk
        rcases hk with hk | hk
        · exact Nat.lt_succ_of_lt (hkeys k hk)
        · simp at hk
          omega
      rw [ih (i + 1) _ hkeys2 (fun d hd => hgood d (List.mem_cons_of_mem _ hd)),
        pyEnumFrom_cons]
      have h1 : ¬ c = '.' := fun hq => hp (Or.inl hq)
      have h2 : ¬ c = '_' := fun hq => hp (Or.inr hq)
      simp [List.filterMap_cons, h1, h2]

theorem parseGreensGo_error_iff (s : PyStr) (i : Nat) (out : List (Nat × Char)) :
    (∃ e, parseGreensGo i s out = .error e) ↔
      ∃ c ∈ s, ¬(c = '.' ∨ c = '_') ∧ ¬c.isAlpha = true := by
  induction s generalizing i out with
  | nil => simp [parseGreensGo]
  | cons c rest ih =>
    simp only [parseGreensGo]
    by_cases hp : c = '.' ∨ c = '_'
    · rw [if_pos hp, ih]
      constructor
      · rintro ⟨d, hd, hbad⟩
        exact ⟨d, List.mem_cons_of_mem _ hd, hbad⟩
      · rintro ⟨d, hd, hbad⟩
        rcases List.mem_cons.mp hd with rfl | hm
        · exact absurd hp hbad.1
        · exact ⟨d, hm, hbad⟩
    · by_cases ha : c.isAlpha
      · rw [if_neg hp, if_pos ha, ih]
        constructor
        · rintro ⟨d, hd, hbad⟩
          exact ⟨d, List.mem_cons_of_mem _ hd, hbad⟩
        · rintro ⟨d, hd, hbad⟩
          rcases List.mem_cons.mp hd with rfl | hm
          · exact absurd ha hbad.2
          · exact ⟨d, hm, hbad⟩
      · rw [if_neg hp, if_neg ha]
        constructor
        · intro _
          exact ⟨c, List.mem_cons_self _ _, hp, ha⟩
        · intro _
          exact ⟨_, rfl⟩

theorem parseGreensGo_keys_lt (s : PyStr) (i : Nat) (out res : List (Nat × Char))
    (h : parseGreensGo i s out = .ok res)
    (hout : ∀ k ∈ keysOf out, k < i + s.length) :
    ∀ k ∈ keysOf res, k < i + s.length := by
  induction s generalizing i out with
  | nil =>
    simp only [parseGreensGo] at h
    have : out = res := Except.ok.inj h
    subst this
    exact hout
  | cons c rest ih =>
    simp only [parseGreensGo] at h
    have hlen : i + (c :: rest).length = (i + 1) + rest.length := by
      simp
      omega
    by_cases hp : c = '.' ∨ c = '_'
    · rw [if_pos hp] at h
      rw [hlen]
      exact ih (i + 1) out h (fun k hk => by
        have := hout k hk
        omega)
    · by_cases ha : c.isAlpha
      · rw [if_neg hp, if_pos ha] at h
        rw [hlen]
        refine ih (i + 1) _ h ?_
        intro k hk
        rcases mem_keysOf_of_dictInsert _ _ _ _ hk with hk | hk
        · have := hout k hk
          omega
        · omega
      · rw [if_neg hp, if_neg ha] at h
        exact absurd h (by simp)

theorem length_dropWhile_le (f : α → Bool) (l : List α) :
    (l.dropWhile f).length ≤ l.length := by
  induction l with
  | nil => simp
  | cons a rest ih =>
    by_cases h : f a = true <;> simp [List.dropWhile, h]
    exact Nat.le_succ_of_le ih

theorem pyStrip_length_le (s : PyStr) : (pyStrip s).length ≤ s.length := by
  unfold pyStrip
  rw [List.length_reverse]
  calc ((s.dropWhile Char.isWhitespace).reverse.dropWhile Char.isWhitespace).length
      ≤ (s.dropWhile Char.isWhitespace).reverse.length :=
        length_dropWhile_le _ _
    _ = (s.dropWhile Char.isWhitespace).length := List.length_reverse _
    _ ≤ s.length := length_dropWhile_le _ _

theorem parse_greens_pattern_keys_lt (pattern : PyStr) (res : List (Nat × Char))
    (h : parse_greens_pattern pattern = .ok res) :
    ∀ k ∈ keysOf res, k < (pyStrip pattern).length := by
  unfold parse_greens_pattern at h
  have := parseGreensGo_keys_lt (pyStrip pattern) 0 [] res h
    (by simp [keysOf_nil])
  simpa using this

/-- Failure condition on the parsed 1-based position: present but outside
the word. -/
def posOutOfRange (o : Option Int) (wl : Nat) : Prop :=
  match o with
  | none => False
  | some n => ¬(1 ≤ n ∧ n ≤ (wl : Int))

instance (o : Option Int) (wl : Nat) : Decidable (posOutOfRange o wl) :=
  match o with
  | none => isFalse (fun h => h)
  | some n => inferInstanceAs (Decidable (¬(1 ≤ n ∧ n ≤ (wl : Int))))

/-- The four failure conditions for one yellow token, as the specification
states them: missing separator, letter part not a single alphabetic
character, position part not an integer, or position out of range. -/
def tokenBad (p : PyStr) (wl : Nat) : Prop :=
  '@' ∉ p ∨ (letterPart p).length ≠ 1 ∨
    ¬ (letterPart p).all Char.isAlpha = true ∨
    pyParseInt (posPart p) = none ∨ posOutOfRange (pyParseInt (posPart p)) wl

instance (p : PyStr) (wl : Nat) : Decidable (tokenBad p wl) :=
  inferInstanceAs (Decidable ('@' ∉ p ∨ (letterPart p).length ≠ 1 ∨
    ¬ (letterPart p).all Char.isAlpha = true ∨
    pyParseInt (posPart p) = none ∨ posOutOfRange (pyParseInt (posPart p)) wl))

/-- Value of a well-formed yellow token: lowercased letter and 0-based
position. -/
def tokenVal (p : PyStr) : Char × Nat :=
  (((letterPart p).headD 'a').toLower, ((pyParseInt (posPart p)).getD 0 - 1).toNat)

theorem parseYellowToken_ok_of (p : PyStr) (wl : Nat) (h : ¬ tokenBad p wl) :
    parseYellowToken p wl = .ok (tokenVal p) := by
  unfold tokenBad at h
  push_neg at h
  obtain ⟨h1, h2, h3, h4, h5⟩ := h
  unfold parseYellowToken
  rw [if_pos h1, if_neg (by push_neg; exact ⟨h2, h3⟩)]
  split
  · rename_i n hpi
    have h5' : ¬ posOutOfRange (some n) wl := by
      rw [hpi] at h5
      exact h5
    have hrange : 1 ≤ n ∧ n ≤ (wl : Int) := by
      by_contra hq
      exact h5' hq
    rw [if_pos hrange]
    unfold tokenVal
    rw [hpi]
    rfl
  · rename_i hpi
    exact absurd hpi h4

theorem parseYellowToken_error_iff (p : PyStr) (wl : Nat) :
    (∃ e, parseYellowToken p wl = .error e) ↔ tokenBad p wl := by
  constructor
  · intro hex
    by_contra hbad
    rw [parseYellowToken_ok_of p wl hbad] at hex
    rcases hex with ⟨e, he⟩
    simp at he
  · intro hbad
    unfold parseYellowToken
    by_cases h1 : '@' ∈ p
    · rw [if_pos h1]
      by_cases h23 : (letterPart p).length ≠ 1 ∨
          ¬ (letterPart p).all Char.isAlpha = true
      · rw [if_pos h23]
        exact ⟨_, rfl⟩
      · rw [if_neg h23]
        split
        · rename_i n hpi
          rcases hbad with hb | hb | hb | hb | hb
          · exact absurd h1 hb
          · exact absurd (Or.inl hb) h23
          · exact absurd (Or.inr hb) h23
          · rw [hpi] at hb
            simp at hb
          · rw [hpi] at hb
            have hnr : ¬(1 ≤ n ∧ n ≤ (wl : Int)) := fun hq => hb hq
            rw [if_neg hnr]
            exact ⟨_, rfl⟩
        · rename_i hpi
          exact ⟨_, rfl⟩
    · rw [if_neg h1]
      exact ⟨_, rfl⟩

theorem parseYellowToken_pos_lt (p : PyStr) (wl : Nat) (pr : Char × Nat)
    (h : parseYellowToken p wl = .ok pr) : pr.2 < wl := by
  unfold parseYellowToken at h
  by_cases h1 : '@' ∈ p
  · rw [if_pos h1] at h
    by_cases h23 : (letterPart p).length ≠ 1 ∨
        ¬ (letterPart p).all Char.isAlpha = true
    · rw [if_pos h23] at h
      simp at h
    · rw [if_neg h23] at h
      split at h
      · rename_i n hpi
        by_cases hr : 1 ≤ n ∧ n ≤ (wl : Int)
        · rw [if_pos hr] at h
          cases h
          have : (n - 1).toNat < wl := by omega
          simpa using this
        · rw [if_neg hr] at h
          simp at h
      · rename_i hpi
        simp at h
  · rw [if_neg h1] at h
    simp at h

theorem parseYellowsGo_cons (wl : Nat) (p : PyStr) (rest : List PyStr)
    (out : List (Char × Nat)) :
    parseYellowsGo wl (p :: rest) out =
      match parseYellowToken p wl with
      | .ok pair => parseYellowsGo wl rest (out ++ [pair])
      | .error e => .error e := rfl

theorem parseYellowsGo_ok (wl : Nat) (tokens : List PyStr)
    (out : List (Char × Nat)) (h : ∀ p ∈ tokens, ¬ tokenBad p wl) :
    parseYellowsGo wl tokens out = .ok (out ++ tokens.map tokenVal) := by
  induction tokens generalizing out with
  | nil => simp [parseYellowsGo]
  | cons p rest ih =>
    rw [parseYellowsGo_cons,
      parseYellowToken_ok_of p wl (h p (List.mem_cons_self _ _))]
    show parseYellowsGo wl rest (out ++ [tokenVal p]) = _
    rw [ih _ (fun q hq => h q (List.mem_cons_of_mem _ hq)), List.map_cons,
      List.append_assoc]
    rfl

theorem parseYellowsGo_error_iff (wl : Nat) (tokens : List PyStr)
    (out : List (Char × Nat)) :
    (∃ e, parseYellowsGo wl tokens out = .error e) ↔
      ∃ p ∈ tokens, tokenBad p wl := by
  induction tokens generalizing out with
  | nil => simp [parseYellowsGo]
  | cons p rest ih =>
    rw [parseYellowsGo_cons]
    rcases ht : parseYellowToken p wl with e | pair
    · have hbad : tokenBad p wl := (parseYellowToken_error_iff p wl).mp ⟨e, ht⟩
      constructor
      · intro _
        exact ⟨p, List.mem_cons_self _ _, hbad⟩
      · intro _
        exact ⟨e, rfl⟩
    · have hgood : ¬ tokenBad p wl := by
        intro hb
        rcases (parseYellowToken_error_iff p wl).mpr hb with ⟨e, he⟩
        rw [ht] at he
        simp at he
      show (∃ e, parseYellowsGo wl rest (out ++ [pair]) = .error e) ↔ _
      rw [ih]
      constructor
      · rintro ⟨q, hq, hbad⟩
        exact ⟨q, List.mem_cons_of_mem _ hq, hbad⟩
      · rintro ⟨q, hq, hbad⟩
        rcases List.mem_cons.mp hq with rfl | hm
        · exact absurd hbad hgood
        · exact ⟨q, hm, hbad⟩

theorem parseYellowsGo_pos_lt (wl : Nat) (tokens : List PyStr)
    (out res : List (Char × Nat)) (h : parseYellowsGo wl tokens out = .ok res)
    (hout : ∀ pr ∈ out, pr.2 < wl) : ∀ pr ∈ res, pr.2 < wl := by
  induction tokens generalizing out with
  | nil =>
    simp only [parseYellowsGo] at h
    have : out = res := Except.ok.inj h
    subst this
    exact hout
  | cons p rest ih =>
    rw [parseYellowsGo_cons] at h
    rcases ht : parseYellowToken p wl with e | pair
    · rw [ht] at h
      simp at h
    · rw [ht] at h
      change parseYellowsGo wl rest (out ++ [pair]) = Except.ok res at h
      refine ih (out ++ [pair]) h ?_
      intro pr hpr
      rw [List.mem_append] at hpr
      rcases hpr with hpr | hpr
      · exact hout pr hpr
      · simp at hpr
        subst hpr
        exact parseYellowToken_pos_lt p wl pr ht

theorem parse_yellows_pos_lt (spec : PyStr) (wl : Nat) (res : List (Char × Nat))
    (h : parse_yellows spec wl = .ok res) : ∀ pr ∈ res, pr.2 < wl := by
  unfold parse_yellows at h
  by_cases hs : pyStrip spec = []
  · rw [if_pos hs] at h
    have : ([] : List (Char × Nat)) = res := Except.ok.inj h
    subst this
    simp
  · rw [if_neg hs] at h
    exact parseYellowsGo_pos_lt wl _ [] res h (by simp)

/-! Characterization of the ranker. -/

/-- Specification-level score of a word: the sum, over its distinct
letters, of the reciprocal of the number of candidate words containing
that letter at least once. -/
def specScore (words : List PyStr) (w : PyStr) : ℚ :=
  Finset.sum w.toFinset
    (fun ch => (1 : ℚ) / (words.countP (fun v => decide (ch ∈ v)) : ℚ))

theorem counterGet_foldl_counterInc (l : List Char) (c : List (Char × Nat))
    (x : Char) :
    counterGet (l.foldl counterInc c) x = counterGet c x + l.count x := by
  induction l generalizing c with
  | nil => simp
  | cons a rest ih =>
    rw [List.foldl_cons, ih, counterGet_counterInc]
    by_cases h : x = a
    · subst h
      simp [List.count_cons]
      omega
    · have h2 : ¬ a = x := fun hq => h hq.symm
      simp [List.count_cons, h, h2]

theorem count_pySet [DecidableEq α] (l : List α) (x : α) :
    (pySet l).count x = if x ∈ l then 1 else 0 := by
  by_cases h : x ∈ l
  · rw [if_pos h]
    exact List.count_eq_one_of_mem (nodup_pySet l) ((mem_pySet l x).mpr h)
  · rw [if_neg h]
    exact List.count_eq_zero_of_not_mem (fun hm => h ((mem_pySet l x).mp hm))

theorem counterGet_letterFreq (words : List PyStr) (ch : Char) :
    counterGet (letterFreq words) ch =
      words.countP (fun v => decide (ch ∈ v)) := by
  unfold letterFreq
  suffices hgen : ∀ (ws : List PyStr) (c : List (Char × Nat)),
      counterGet (ws.foldl (fun cnt w => (pySet w).foldl counterInc cnt) c) ch =
        counterGet c ch + ws.countP (fun v => decide (ch ∈ v)) by
    have hw := hgen words []
    have h0 : counterGet ([] : List (Char × Nat)) ch = 0 := rfl
    rw [h0] at hw
    simpa using hw
  intro ws
  induction ws with
  | nil => simp
  | cons w rest ih =>
    intro c
    rw [List.foldl_cons, ih, counterGet_foldl_counterInc, count_pySet,
      List.countP_cons]
    by_cases h : ch ∈ w
    · simp [h]
      omega
    · simp [h]

theorem score_eq_specScore (words : List PyStr) (w : PyStr) :
    score words w = specScore words w := by
  unfold score specScore
  have hfin : (pySet w).toFinset = w.toFinset := by
    apply Finset.ext
    intro a
    simp [List.mem_toFinset, mem_pySet]
  rw [← hfin, List.sum_toFinset _ (nodup_pySet w)]
  congr 1
  apply List.map_congr_left
  intro ch _
  rcases hl : alookup ch (letterFreq words) with _ | c
  · have hz : counterGet (letterFreq words) ch = 0 := by
      unfold counterGet alookupD
      rw [hl]
      rfl
    rw [counterGet_letterFreq] at hz
    rw [hz]
    simp
  · have hc : counterGet (letterFreq words) ch = c := by
      unfold counterGet alookupD
      rw [hl]
      rfl
    rw [counterGet_letterFreq] at hc
    rw [← hc]

theorem score_by_letter_coverage_perm (words : List PyStr) (h : words ≠ []) :
    (score_by_letter_coverage words).Perm
      (words.map (fun w => (w, score words w))) := by
  unfold score_by_letter_coverage
  rw [if_neg h]
  exact List.mergeSort_perm _ _

theorem score_by_letter_coverage_sorted (words : List PyStr) :
    (score_by_letter_coverage words).Pairwise
      (fun a b => b.2 ≤ a.2) := by
  unfold score_by_letter_coverage
  by_cases h : words = []
  · rw [if_pos h]
    simp
  · rw [if_neg h]
    have hs := @List.sorted_mergeSort (PyStr × ℚ)
      (fun a b => decide (b.2 ≤ a.2))
      (fun a b c hab hbc => by
        simp only [decide_eq_true_eq] at hab hbc ⊢
        exact le_trans hbc hab)
      (fun a b => by
        simp only [Bool.or_eq_true, decide_eq_true_eq]
        exact le_total b.2 a.2)
      (words.map (fun w => (w, score words w)))
    refine hs.imp ?_
    intro a b hab
    simpa using hab

/-! Monotonicity of the accumulated constraints. -/

/-- Pointwise order on constraint states: no fixed position, minimum-count
key, banned letter or index, or excluded letter is ever lost, and each
minimum never decreases. -/
def stateLE (s t : SolverState) : Prop :=
  (∀ i, i ∈ keysOf s.greens → i ∈ keysOf t.greens) ∧
  (∀ ch, ch ∈ keysOf s.mins → ch ∈ keysOf t.mins) ∧
  (∀ ch, minGet s ch ≤ minGet t ch) ∧
  (∀ ch, ch ∈ keysOf s.banned → ch ∈ keysOf t.banned) ∧
  (∀ ch i, i ∈ bannedGet s ch → i ∈ bannedGet t ch) ∧
  (∀ ch, ch ∈ s.excluded → ch ∈ t.excluded)

theorem stateLE_refl (s : SolverState) : stateLE s s :=
  ⟨fun _ h => h, fun _ h => h, fun _ => Nat.le_refl _, fun _ h => h,
   fun _ _ h => h, fun _ h => h⟩

theorem stateLE_trans {s t u : SolverState} (h1 : stateLE s t)
    (h2 : stateLE t u) : stateLE s u :=
  ⟨fun i h => h2.1 i (h1.1 i h),
   fun ch h => h2.2.1 ch (h1.2.1 ch h),
   fun ch => Nat.le_trans (h1.2.2.1 ch) (h2.2.2.1 ch),
   fun ch h => h2.2.2.2.1 ch (h1.2.2.2.1 ch h),
   fun ch i h => h2.2.2.2.2.1 ch i (h1.2.2.2.2.1 ch i h),
   fun ch h => h2.2.2.2.2.2 ch (h1.2.2.2.2.2 ch h)⟩

theorem mem_keysOf_dictUpdate [DecidableEq α] (d upd : List (α × β)) (k : α)
    (h : k ∈ keysOf d) : k ∈ keysOf (dictUpdate d upd) := by
  unfold dictUpdate
  induction upd generalizing d with
  | nil => exact h
  | cons p rest ih => exact ih _ (mem_keysOf_dictInsert _ _ _ _ h)

theorem mem_keysOf_minStep (m : List (Char × Nat)) (e : Char × Nat) (ch : Char)
    (h : ch ∈ keysOf m) : ch ∈ keysOf (minStep m e) := by
  unfold minStep
  by_cases hgt : e.2 > alookupD e.1 m 0
  · rw [if_pos hgt]
    exact mem_keysOf_dictInsert _ _ _ _ h
  · rw [if_neg hgt]
    exact h

theorem mem_keysOf_minsFold (entries : List (Char × Nat))
    (m : List (Char × Nat)) (ch : Char) (h : ch ∈ keysOf m) :
    ch ∈ keysOf (entries.foldl minStep m) := by
  induction entries generalizing m with
  | nil => exact h
  | cons e rest ih => exact ih _ (mem_keysOf_minStep _ _ _ h)

theorem minGet_le_minStep (m : List (Char × Nat)) (e : Char × Nat) (ch : Char) :
    alookupD ch m 0 ≤ alookupD ch (minStep m e) 0 := by
  by_cases hc : ch = e.1
  · subst hc
    rw [alookupD_minStep_self]
    exact Nat.le_max_left _ _
  · rw [alookupD_minStep_ne _ _ _ hc]

theorem minGet_le_minsFold (entries : List (Char × Nat))
    (m : List (Char × Nat)) (ch : Char) :
    alookupD ch m 0 ≤ alookupD ch (entries.foldl minStep m) 0 := by
  induction entries generalizing m with
  | nil => exact Nat.le_refl _
  | cons e rest ih =>
    exact Nat.le_trans (minGet_le_minStep m e ch) (ih _)

theorem yellowFold_snd_keys (g : PyStr) (ys : List (Char × Nat))
    (c : List (Char × Nat)) (b : List (Char × List Nat)) (ch : Char)
    (h : ch ∈ keysOf b) :
    ch ∈ keysOf ((ys.foldl (yellowStep g) (c, b)).2) := by
  induction ys generalizing c b with
  | nil => exact h
  | cons y rest ih =>
    rw [List.foldl_cons, yellowStep_eta]
    exact ih _ _ (mem_keysOf_bannedAdd _ _ _ _ h)

theorem stateLE_applyRoundFeedback (guess : PyStr)
    (greens_update : List (Nat × Char)) (yellows : List (Char × Nat))
    (st : SolverState) :
    stateLE st (applyRoundFeedback guess greens_update yellows st) := by
  unfold applyRoundFeedback
  refine ⟨?_, ?_, ?_, ?_, ?_, ?_⟩
  · intro i hi
    rw [greens_update_eq]
    exact mem_keysOf_dictUpdate _ _ _ hi
  · intro ch hch
    exact mem_keysOf_minsFold _ _ _ hch
  · intro ch
    rw [minGet_update]
    exact Nat.le_max_left _ _
  · intro ch hch
    exact yellowFold_snd_keys _ _ _ _ _ hch
  · intro ch i hi
    rw [mem_bannedGet_update]
    exact Or.inl hi
  · intro ch hch
    rw [mem_excluded_update]
    exact Or.inl hch

theorem stateLE_applyRounds (rounds : List Round) (st : SolverState) :
    stateLE st (applyRounds st rounds) := by
  induction rounds generalizing st with
  | nil => exact stateLE_refl st
  | cons r rest ih =>
    exact stateLE_trans
      (stateLE_applyRoundFeedback r.guess r.greens r.yellows st) (ih _)

/-! Behaviour of the interactive loop round. -/

/-- Invariant the session loop maintains once the word length is fixed:
all candidate words have the session length, and every fixed position and
banned index lies inside the word. -/
def loopInvariant (word_len : Nat) (ls : LoopState) : Prop :=
  (∀ w ∈ ls.current_words, w.length = word_len) ∧
  (∀ p ∈ ls.state.greens, p.1 < word_len) ∧
  (∀ p ∈ ls.state.banned, ∀ i ∈ p.2, i < word_len)

theorem round_step_cases (wl : Nat) (ls : LoopState) (guess gp yp : PyStr) :
    round_step wl ls guess gp yp = .quit ls ∨
    round_step wl ls guess gp yp = .rejected ls ∨
    (∃ gu, parse_greens_pattern gp = .ok gu ∧ gp.length = wl ∧
      round_step wl ls guess gp yp = .rejected
        ⟨ls.current_words, ⟨dictUpdate ls.state.greens gu, ls.state.mins,
          ls.state.banned, ls.state.excluded⟩⟩) ∨
    (∃ gu ys ws, parse_greens_pattern gp = .ok gu ∧
      parse_yellows yp wl = .ok ys ∧ gp.length = wl ∧
      filter_candidates ls.current_words
        (applyRoundFeedback guess gu ys ls.state) = some ws ∧
      round_step wl ls guess gp yp =
        .accepted ⟨ws, applyRoundFeedback guess gu ys ls.state⟩) ∨
    (∃ gu ys, parse_greens_pattern gp = .ok gu ∧
      parse_yellows yp wl = .ok ys ∧ gp.length = wl ∧
      filter_candidates ls.current_words
        (applyRoundFeedback guess gu ys ls.state) = none ∧
      round_step wl ls guess gp yp = .crashed) := by
  unfold round_step
  split
  · exact Or.inl rfl
  · split
    · exact Or.inr (Or.inl rfl)
    · split
      · exact Or.inr (Or.inl rfl)
      · split
        · exact Or.inr (Or.inl rfl)
        · rename_i hq ha hg hlen
          have hlen' : gp.length = wl := not_not.mp hlen
          split
          · exact Or.inr (Or.inl rfl)
          · rename_i gu hgu
            split
            · exact Or.inr (Or.inr (Or.inl ⟨gu, hgu, hlen', rfl⟩))
            · rename_i ys hys
              split
              · rename_i hf
                exact Or.inr (Or.inr (Or.inr (Or.inr
                  ⟨gu, ys, hgu, hys, hlen', hf, rfl⟩)))
              · rename_i ws hf
                exact Or.inr (Or.inr (Or.inr (Or.inl
                  ⟨gu, ys, ws, hgu, hys, hlen', hf, rfl⟩)))

theorem round_step_rejected (wl : Nat) (ls : LoopState) (guess gp yp : PyStr)
    (ls' : LoopState) (h : round_step wl ls guess gp yp = .rejected ls') :
    ls'.current_words = ls.current_words ∧ ls'.state.mins = ls.state.mins ∧
    ls'.state.banned = ls.state.banned ∧
    ls'.state.excluded = ls.state.excluded ∧
    (ls'.state.greens = ls.state.greens ∨
      ∃ gu, parse_greens_pattern gp = .ok gu ∧
        ls'.state.greens = dictUpdate ls.state.greens gu) := by
  rcases round_step_cases wl ls guess gp yp with hc | hc |
    ⟨gu, hgu, _, hc⟩ | ⟨gu, ys, ws, _, _, _, _, hc⟩ | ⟨gu, ys, _, _, _, _, hc⟩
  · rw [hc] at h
    simp at h
  · rw [hc] at h
    simp only [RoundResult.rejected.injEq] at h
    subst h
    exact ⟨rfl, rfl, rfl, rfl, Or.inl rfl⟩
  · rw [hc] at h
    simp only [RoundResult.rejected.injEq] at h
    subst h
    exact ⟨rfl, rfl, rfl, rfl, Or.inr ⟨gu, hgu, rfl⟩⟩
  · rw [hc] at h
    simp at h
  · rw [hc] at h
    simp at h

theorem round_step_wrong_gp_length (wl : Nat) (ls : LoopState)
    (guess gp yp : PyStr) (hlen : gp.length ≠ wl) :
    round_step wl ls guess gp yp = .quit ls ∨
      round_step wl ls guess gp yp = .rejected ls := by
  rcases round_step_cases wl ls guess gp yp with hc | hc |
    ⟨_, _, hl, _⟩ | ⟨_, _, _, _, _, hl, _, _⟩ | ⟨_, _, _, _, hl, _, _⟩
  · exact Or.inl hc
  · exact Or.inr hc
  · exact absurd hl hlen
  · exact absurd hl hlen
  · exact absurd hl hlen

theorem bannedAdd_bound (b : List (Char × List Nat)) (l : Char) (idx : Nat)
    (wl : Nat) (hb : ∀ p ∈ b, ∀ i ∈ p.2, i < wl) (hidx : idx < wl) :
    ∀ p ∈ bannedAdd b l idx, ∀ i ∈ p.2, i < wl := by
  unfold bannedAdd
  by_cases hs : (alookup l b).isSome
  · rw [if_pos hs]
    unfold mapAt
    intro p hp i hi
    rcases List.mem_map.mp hp with ⟨q, hq, hpq⟩
    by_cases hql : q.1 = l
    · rw [if_pos hql] at hpq
      subst hpq
      rcases (mem_setAdd _ _ _).mp hi with hi | hi
      · exact hb q hq i hi
      · subst hi
        exact hidx
    · rw [if_neg hql] at hpq
      subst hpq
      exact hb q hq i hi
  · rw [if_neg hs]
    intro p hp i hi
    rcases List.mem_append.mp hp with hp | hp
    · exact hb p hp i hi
    · simp at hp
      subst hp
      simp at hi
      subst hi
      exact hidx

theorem yellowFold_snd_bound (g : PyStr) (ys : List (Char × Nat))
    (c : List (Char × Nat)) (b : List (Char × List Nat)) (wl : Nat)
    (hb : ∀ p ∈ b, ∀ i ∈ p.2, i < wl) (hy : ∀ y ∈ ys, y.2 < wl) :
    ∀ p ∈ (ys.foldl (yellowStep g) (c, b)).2, ∀ i ∈ p.2, i < wl := by
  induction ys generalizing c b with
  | nil => exact hb
  | cons y rest ih =>
    rw [List.foldl_cons, yellowStep_eta]
    exact ih _ _
      (bannedAdd_bound _ _ _ _ hb (hy y (List.mem_cons_self _ _)))
      (fun q hq => hy q (List.mem_cons_of_mem _ hq))

theorem mem_keysOf_of_dictUpdate [DecidableEq α] (d upd : List (α × β)) (k : α)
    (h : k ∈ keysOf (dictUpdate d upd)) : k ∈ keysOf d ∨ k ∈ keysOf upd := by
  unfold dictUpdate at h
  induction upd generalizing d with
  | nil => exact Or.inl h
  | cons p rest ih =>
    rcases ih _ h with hk | hk
    · rcases mem_keysOf_of_dictInsert _ _ _ _ hk with hk2 | hk2
      · exact Or.inl hk2
      · right
        rw [keysOf_cons, hk2]
        exact List.mem_cons_self _ _
    · right
      rw [keysOf_cons]
      exact List.mem_cons_of_mem _ hk

theorem filter_candidates_isSome (words : List PyStr) (st : SolverState)
    (h : ∀ w ∈ words, (candidate_ok w st).isSome = true) :
    (filter_candidates words st).isSome = true := by
  induction words with
  | nil => rfl
  | cons w rest ih =>
    rw [filter_candidates_cons]
    rcases hc : candidate_ok w st with _ | b
    · have hm := h w (List.mem_cons_self _ _)
      rw [hc] at hm
      exact absurd hm (by simp)
    · have hr := ih (fun v hv => h v (List.mem_cons_of_mem _ hv))
      rcases hf : filter_candidates rest st with _ | out
      · rw [hf] at hr
        exact absurd hr (by simp)
      · rfl

/-- Bounds of the accumulator output needed by the filter: greens keys come
from the old state or the round greens, banned indices from the old state
or the round yellows. -/
theorem applyRoundFeedback_bounds (guess : PyStr) (gu : List (Nat × Char))
    (ys : List (Char × Nat)) (st : SolverState) (wl : Nat)
    (hg : ∀ p ∈ st.greens, p.1 < wl) (hgu : ∀ k ∈ keysOf gu, k < wl)
    (hb : ∀ p ∈ st.banned, ∀ i ∈ p.2, i < wl) (hy : ∀ y ∈ ys, y.2 < wl) :
    (∀ p ∈ (applyRoundFeedback guess gu ys st).greens, p.1 < wl) ∧
    (∀ p ∈ (applyRoundFeedback guess gu ys st).banned, ∀ i ∈ p.2, i < wl) := by
  constructor
  · intro p hp
    have hk : p.1 ∈ keysOf ((applyRoundFeedback guess gu ys st).greens) :=
      List.mem_map_of_mem Prod.fst hp
    rw [show (applyRoundFeedback guess gu ys st).greens =
      dictUpdate st.greens gu from rfl] at hk
    rcases mem_keysOf_of_dictUpdate _ _ _ hk with hk | hk
    · rcases List.mem_map.mp hk with ⟨q, hq, hpq⟩
      exact hpq ▸ hg q hq
    · exact hgu _ hk
  · intro p hp
    have : (applyRoundFeedback guess gu ys st).banned =
        (ys.foldl (yellowStep (lowerStr guess))
          ((pyEnumFrom 0 (lowerStr guess)).foldl (greensStep gu) [],
            st.banned)).2 := rfl
    rw [this] at hp
    exact yellowFold_snd_bound _ _ _ _ _ hb hy p hp

theorem loopInvariant_round_step (wl : Nat) (ls : LoopState)
    (guess gp yp : PyStr) (hinv : loopInvariant wl ls) :
    round_step wl ls guess gp yp ≠ .crashed ∧
    ∀ ls', (round_step wl ls guess gp yp = .quit ls' ∨
      round_step wl ls guess gp yp = .rejected ls' ∨
      round_step wl ls guess gp yp = .accepted ls') →
      loopInvariant wl ls' := by
  obtain ⟨hw, hg, hb⟩ := hinv
  rcases round_step_cases wl ls guess gp yp with hc | hc |
    ⟨gu, hgu, hlen, hc⟩ | ⟨gu, ys, ws, hgu, hys, hlen, hf, hc⟩ |
    ⟨gu, ys, hgu, hys, hlen, hf, hc⟩
  · refine ⟨by rw [hc]; simp, ?_⟩
    intro ls' hls'
    rcases hls' with h | h | h <;> rw [hc] at h <;> simp at h
    subst h
    exact ⟨hw, hg, hb⟩
  · refine ⟨by rw [hc]; simp, ?_⟩
    intro ls' hls'
    rcases hls' with h | h | h <;> rw [hc] at h <;> simp at h
    subst h
    exact ⟨hw, hg, hb⟩
  · have hguk : ∀ k ∈ keysOf gu, k < wl := by
      intro k hk
      have := parse_greens_pattern_keys_lt gp gu hgu k hk
      have hle := pyStrip_length_le gp
      omega
    refine ⟨by rw [hc]; simp, ?_⟩
    intro ls' hls'
    rcases hls' with h | h | h
    · rw [hc] at h
      exact absurd h (by simp)
    · rw [hc] at h
      simp only [RoundResult.rejected.injEq] at h
      subst h
      refine ⟨hw, ?_, hb⟩
      intro p hp
      have hk : p.1 ∈ keysOf (dictUpdate ls.state.greens gu) :=
        List.mem_map_of_mem Prod.fst hp
      rcases mem_keysOf_of_dictUpdate _ _ _ hk with hk | hk
      · rcases List.mem_map.mp hk with ⟨q, hq, hpq⟩
        exact hpq ▸ hg q hq
      · exact hguk _ hk
    · rw [hc] at h
      exact absurd h (by simp)
  · -- accepted round
    have hguk : ∀ k ∈ keysOf gu, k < wl := by
      intro k hk
      have := parse_greens_pattern_keys_lt gp gu hgu k hk
      have hle := pyStrip_length_le gp
      omega
    have hyk : ∀ y ∈ ys, y.2 < wl := parse_yellows_pos_lt yp wl ys hys
    have hbounds := applyRoundFeedback_bounds guess gu ys ls.state wl hg hguk hb hyk
    refine ⟨by rw [hc]; simp, ?_⟩
    intro ls' hls'
    rcases hls' with h | h | h
    · rw [hc] at h
      exact absurd h (by simp)
    · rw [hc] at h
      exact absurd h (by simp)
    · rw [hc] at h
      simp only [RoundResult.accepted.injEq] at h
      subst h
      have hws := filter_candidates_spec _ _ _ hf
      refine ⟨?_, hbounds.1, hbounds.2⟩
      intro w hwmem
      exact hw w (hws.1.mem hwmem)
  · -- crash branch is impossible under the invariant
    have hguk : ∀ k ∈ keysOf gu, k < wl := by
      intro k hk
      have := parse_greens_pattern_keys_lt gp gu hgu k hk
      have hle := pyStrip_length_le gp
      omega
    have hyk : ∀ y ∈ ys, y.2 < wl := parse_yellows_pos_lt yp wl ys hys
    have hbounds := applyRoundFeedback_bounds guess gu ys ls.state wl hg hguk hb hyk
    have hsome := filter_candidates_isSome ls.current_words
      (applyRoundFeedback guess gu ys ls.state) ?_
    · rw [hf] at hsome
      exact absurd hsome (by simp)
    · intro w hwmem
      apply candidate_ok_isSome
      · intro p hp
        rw [hw w hwmem]
        exact hbounds.1 p hp
      · intro p hp i hi
        rw [hw w hwmem]
        exact hbounds.2 p hp i hi

theorem loopInvariant_init (words : List PyStr) (wl : Nat) :
    loopInvariant wl ⟨filter_by_length words wl, emptyState⟩ := by
  refine ⟨?_, by simp [emptyState], by simp [emptyState]⟩
  intro w hw
  unfold filter_by_length at hw
  rw [List.mem_filter] at hw
  simpa using hw.2

/-! Claim theorems. -/

/-- C1: update_constraints_from_feedback counts one per green position
whose guess letter matches the fixed letter, counts a yellow entry only
when the guess letter at its position equals it while always banning that
position for the letter, raises each letter's global minimum to the
maximum of its current value and the round count, and adds every distinct
guess letter with a zero round count to the excluded set; on guess adieu
with yellow a at position 1 and no greens, position 0 is banned for a, the
minimum for a is 1 and d, i, e, u are excluded. -/
theorem claim_C1 :
    (∀ guess greens yellows st ch,
      minGet (update_constraints_from_feedback guess greens yellows st) ch =
        max (minGet st ch) (roundCount guess greens yellows ch)) ∧
    (∀ guess greens yellows st ch i,
      i ∈ bannedGet (update_constraints_from_feedback guess greens yellows st) ch
        ↔ i ∈ bannedGet st ch ∨ (ch, i) ∈ yellows) ∧
    (∀ guess greens yellows st ch,
      ch ∈ (update_constraints_from_feedback guess greens yellows st).excluded
        ↔ ch ∈ st.excluded ∨ (ch ∈ lowerStr guess ∧
          roundCount guess greens yellows ch = 0)) ∧
    (∀ guess greens yellows st,
      (update_constraints_from_feedback guess greens yellows st).greens =
        st.greens) ∧
    bannedGet (update_constraints_from_feedback
      ('a' :: 'd' :: 'i' :: 'e' :: 'u' :: []) [] [('a', 0)] emptyState) 'a'
      = [0] ∧
    minGet (update_constraints_from_feedback
      ('a' :: 'd' :: 'i' :: 'e' :: 'u' :: []) [] [('a', 0)] emptyState) 'a'
      = 1 ∧
    ∀ ch ∈ ('d' :: 'i' :: 'e' :: 'u' :: []),
      ch ∈ (update_constraints_from_feedback
        ('a' :: 'd' :: 'i' :: 'e' :: 'u' :: []) [] [('a', 0)]
        emptyState).excluded :=
  ⟨minGet_update, mem_bannedGet_update, mem_excluded_update, greens_update_eq,
    by decide, by decide, by decide⟩

/-- Witness for C1 at a concrete letter of the adieu example. -/
theorem claim_C1_witness :
    'd' ∈ (update_constraints_from_feedback
      ('a' :: 'd' :: 'i' :: 'e' :: 'u' :: []) [] [('a', 0)]
      emptyState).excluded :=
  claim_C1.2.2.2.2.2.2 'd' (by decide)

/-- C2: candidate_ok returns true exactly when all four conditions hold:
fixed positions match, no excluded letter occurs, each letter with banned
positions occurs and never at a banned position, and all minimum counts
are met; stated for words whose banned indices are in range, where the
test returns rather than raising. -/
theorem claim_C2 (word : PyStr) (st : SolverState)
    (hb : ∀ p ∈ st.banned, ∀ i ∈ p.2, i < word.length) :
    candidate_ok word st = some true ↔ consistentSpec word st :=
  candidate_ok_eq_true_iff word st hb

/-- Witness for C2 on a concrete word and constraint state. -/
theorem claim_C2_witness :
    (candidate_ok ('b' :: 'a' :: [])
        ⟨[(1, 'a')], [('a', 1)], [('a', [0])], ['z']⟩ = some true ↔
      consistentSpec ('b' :: 'a' :: [])
        ⟨[(1, 'a')], [('a', 1)], [('a', [0])], ['z']⟩) :=
  claim_C2 _ _ (by decide)

/-- C3 as stated is false: a round whose yellows specification is rejected
has already merged the round's parsed greens into the global
fixed-positions map, so the state is not unchanged. -/
theorem claim_C3_counterexample :
    round_step 2 ⟨[], emptyState⟩ ('a' :: 'b' :: []) ('a' :: '.' :: [])
        ('x' :: []) =
      .rejected ⟨[], ⟨[(0, 'a')], [], [], []⟩⟩ ∧
    ((⟨[], ⟨[(0, 'a')], [], [], []⟩⟩ : LoopState) ≠ ⟨[], emptyState⟩) := by
  constructor
  · decide
  · decide

/-- C3 amended: a rejected round leaves the candidate set, minimum counts,
banned positions and excluded letters unchanged; the fixed-positions map
is unchanged unless the round was rejected at the yellows prompt, in which
case it has already been merged with the round's parsed greens. -/
theorem claim_C3_amended (wl : Nat) (ls : LoopState) (guess gp yp : PyStr)
    (ls' : LoopState) (h : round_step wl ls guess gp yp = .rejected ls') :
    ls'.current_words = ls.current_words ∧ ls'.state.mins = ls.state.mins ∧
    ls'.state.banned = ls.state.banned ∧
    ls'.state.excluded = ls.state.excluded ∧
    (ls'.state.greens = ls.state.greens ∨
      ∃ gu, parse_greens_pattern gp = .ok gu ∧
        ls'.state.greens = dictUpdate ls.state.greens gu) :=
  round_step_rejected wl ls guess gp yp ls' h

/-- Witness for the amended C3 at the concrete rejected round. -/
theorem claim_C3_witness :
    (⟨[], ⟨[(0, 'a')], [], [], []⟩⟩ : LoopState).current_words =
      (⟨[], emptyState⟩ : LoopState).current_words ∧
    (⟨[], ⟨[(0, 'a')], [], [], []⟩⟩ : LoopState).state.mins =
      (⟨[], emptyState⟩ : LoopState).state.mins ∧
    (⟨[], ⟨[(0, 'a')], [], [], []⟩⟩ : LoopState).state.banned =
      (⟨[], emptyState⟩ : LoopState).state.banned ∧
    (⟨[], ⟨[(0, 'a')], [], [], []⟩⟩ : LoopState).state.excluded =
      (⟨[], emptyState⟩ : LoopState).state.excluded ∧
    ((⟨[], ⟨[(0, 'a')], [], [], []⟩⟩ : LoopState).state.greens =
      (⟨[], emptyState⟩ : LoopState).state.greens ∨
      ∃ gu, parse_greens_pattern ('a' :: '.' :: []) = .ok gu ∧
        (⟨[], ⟨[(0, 'a')], [], [], []⟩⟩ : LoopState).state.greens =
          dictUpdate (⟨[], emptyState⟩ : LoopState).state.greens gu) :=
  claim_C3_amended 2 ⟨[], emptyState⟩ ('a' :: 'b' :: []) ('a' :: '.' :: [])
    ('x' :: []) ⟨[], ⟨[(0, 'a')], [], [], []⟩⟩ (by decide)

/-- C4 as stated is false: parse_greens_pattern takes no word length and
performs no length check, so a pattern whose length differs from the word
length parses without error. -/
theorem claim_C4_counterexample :
    parse_greens_pattern ('.' :: []) = .ok [] ∧
    (('.' :: []) : PyStr).length ≠ 5 := by
  constructor
  · rfl
  · decide

/-- C4 amended: parse_greens_pattern raises exactly when some
non-placeholder character of the stripped pattern is not alphabetic, and
otherwise returns the mapping from each non-placeholder position to its
lowercased letter; the length check against the word length is performed
by the session loop, which rejects a wrong-length pattern before parsing,
leaving the state unchanged. -/
theorem claim_C4_amended :
    (∀ pattern : PyStr, (∃ e, parse_greens_pattern pattern = .error e) ↔
      ∃ c ∈ pyStrip pattern, ¬(c = '.' ∨ c = '_') ∧ ¬c.isAlpha = true) ∧
    (∀ pattern : PyStr,
      (∀ c ∈ pyStrip pattern, (c = '.' ∨ c = '_') ∨ c.isAlpha) →
      parse_greens_pattern pattern = .ok (greensSpecMap pattern)) ∧
    parse_greens_pattern ('.' :: 'r' :: '.' :: '.' :: 'e' :: []) =
      .ok [(1, 'r'), (4, 'e')] ∧
    (∀ wl ls guess gp yp, gp.length ≠ wl →
      round_step wl ls guess gp yp = .quit ls ∨
        round_step wl ls guess gp yp = .rejected ls) := by
  refine ⟨?_, ?_, by rfl, ?_⟩
  · intro pattern
    exact parseGreensGo_error_iff (pyStrip pattern) 0 []
  · intro pattern hgood
    unfold parse_greens_pattern greensSpecMap
    rw [parseGreensGo_ok _ _ _ (by simp [keysOf_nil]) hgood]
    simp
  · intro wl ls guess gp yp hlen
    exact round_step_wrong_gp_length wl ls guess gp yp hlen

/-- Witness for the amended C4: a well-formed pattern parses to the
specification mapping, and a wrong-length pattern is rejected by the
loop. -/
theorem claim_C4_witness :
    parse_greens_pattern ('a' :: 'b' :: []) =
      .ok (greensSpecMap ('a' :: 'b' :: [])) ∧
    (round_step 2 ⟨[], emptyState⟩ ('a' :: 'b' :: []) ('a' :: []) [] =
        .quit ⟨[], emptyState⟩ ∨
      round_step 2 ⟨[], emptyState⟩ ('a' :: 'b' :: []) ('a' :: []) [] =
        .rejected ⟨[], emptyState⟩) :=
  ⟨claim_C4_amended.2.1 _ (by decide),
   claim_C4_amended.2.2.2 2 ⟨[], emptyState⟩ _ _ _ (by decide)⟩

/-- C5: parse_yellows raises exactly when some token lacks the separator,
has a letter part that is not one alphabetic character, has a position
part that is not an integer, or has a position outside the word; empty or
whitespace-only input yields the empty sequence; success returns the
lowercased letters with 0-based positions in token order. -/
theorem claim_C5 :
    (∀ spec wl, pyStrip spec = [] → parse_yellows spec wl = .ok []) ∧
    (∀ spec wl, (∃ e, parse_yellows spec wl = .error e) ↔
      ∃ p ∈ yellowTokens spec, tokenBad p wl) ∧
    (∀ spec wl, (∀ p ∈ yellowTokens spec, ¬ tokenBad p wl) →
      parse_yellows spec wl = .ok ((yellowTokens spec).map tokenVal)) ∧
    parse_yellows ('a' :: '@' :: '3' :: ' ' :: 'n' :: '@' :: '5' :: []) 5 =
      .ok [('a', 2), ('n', 4)] := by
  refine ⟨?_, ?_, ?_, by rfl⟩
  · intro spec wl hs
    unfold parse_yellows
    rw [if_pos hs]
  · intro spec wl
    unfold parse_yellows
    by_cases hs : pyStrip spec = []
    · rw [if_pos hs]
      constructor
      · rintro ⟨e, he⟩
        simp at he
      · rintro ⟨p, hp, hbad⟩
        unfold yellowTokens at hp
        rw [hs] at hp
        simp [pySplitWs, splitWsAux] at hp
    · rw [if_neg hs]
      exact parseYellowsGo_error_iff wl (yellowTokens spec) []
  · intro spec wl hgood
    unfold parse_yellows
    by_cases hs : pyStrip spec = []
    · rw [if_pos hs]
      unfold yellowTokens
      rw [hs]
      simp [pySplitWs, splitWsAux]
    · rw [if_neg hs]
      rw [parseYellowsGo_ok wl _ [] hgood]
      simp

/-- Witness for C5: a whitespace-only spec parses to the empty list and a
well-formed spec parses to its token values. -/
theorem claim_C5_witness :
    parse_yellows (' ' :: []) 5 = .ok [] ∧
    parse_yellows ('a' :: '@' :: '1' :: []) 3 =
      .ok ((yellowTokens ('a' :: '@' :: '1' :: [])).map tokenVal) :=
  ⟨claim_C5.1 _ 5 (by decide), claim_C5.2.2.1 _ 3 (by decide)⟩

/-- Invariant named by C6: no letter is simultaneously excluded and
required with a positive minimum count. -/
def exclMinDisjoint (st : SolverState) : Prop :=
  ∀ ch ∈ st.excluded, minGet st ch = 0

/-- C6 as stated is false: after a round fixing a at position 0 of guess
ab, a second round guessing ac with no marks excludes a while its minimum
count stays 1, so the invariant fails across rounds. -/
theorem claim_C6_counterexample :
    ¬ exclMinDisjoint (applyRounds emptyState
      [⟨'a' :: 'b' :: [], [(0, 'a')], []⟩, ⟨'a' :: 'c' :: [], [], []⟩]) := by
  intro h
  exact absurd (h 'a' (by decide)) (by decide)

/-- C6 amended: the invariant does hold after any single
applyRoundFeedback call on the empty state; it is across later rounds that
the code can violate it. -/
theorem claim_C6_amended (guess : PyStr) (greens_update : List (Nat × Char))
    (yellows : List (Char × Nat)) :
    exclMinDisjoint
      (applyRoundFeedback guess greens_update yellows emptyState) := by
  intro ch hch
  unfold applyRoundFeedback at hch ⊢
  rw [mem_excluded_update] at hch
  rw [minGet_update]
  rcases hch with hch | ⟨_, hrc⟩
  · exact absurd hch (List.not_mem_nil ch)
  · rw [hrc]
    rfl

/-- Witness for the amended C6 at a concrete round. -/
theorem claim_C6_witness :
    exclMinDisjoint
      (applyRoundFeedback ('a' :: 'b' :: []) [(0, 'a')] [] emptyState) :=
  claim_C6_amended _ _ _

/-- C7: filter_candidates returns an order-preserving subsequence of its
input, every returned word passes candidate_ok, and filtering the output
again under the same constraints returns it unchanged. -/
theorem claim_C7 (words : List PyStr) (st : SolverState) (out : List PyStr)
    (h : filter_candidates words st = some out) :
    out.Sublist words ∧ (∀ w ∈ out, candidate_ok w st = some true) ∧
      filter_candidates out st = some out :=
  filter_candidates_spec words st out h

/-- Witness for C7 on a concrete word list. -/
theorem claim_C7_witness :
    (('a' :: 'b' :: []) :: [] : List PyStr).Sublist
      (('a' :: 'b' :: []) :: []) ∧
    (∀ w ∈ (('a' :: 'b' :: []) :: [] : List PyStr),
      candidate_ok w emptyState = some true) ∧
    filter_candidates (('a' :: 'b' :: []) :: []) emptyState =
      some (('a' :: 'b' :: []) :: []) :=
  claim_C7 (('a' :: 'b' :: []) :: []) emptyState (('a' :: 'b' :: []) :: [])
    (by decide)

/-- C8: the ranker is a pure function of the candidate list; each word's
score equals the sum over its distinct letters of the reciprocal of the
number of candidate words containing that letter, in exact rational
arithmetic; the output is the scored words sorted in descending score
order; and the empty list yields the empty ranking. -/
theorem claim_C8 :
    score_by_letter_coverage [] = [] ∧
    (∀ words w, score words w = specScore words w) ∧
    (∀ words, words ≠ [] → (score_by_letter_coverage words).Perm
      (words.map (fun w => (w, specScore words w)))) ∧
    (∀ words, (score_by_letter_coverage words).Pairwise
      (fun a b => b.2 ≤ a.2)) := by
  refine ⟨rfl, score_eq_specScore, ?_, score_by_letter_coverage_sorted⟩
  intro words hne
  have hperm := score_by_letter_coverage_perm words hne
  have hmap : words.map (fun w => (w, score words w)) =
      words.map (fun w => (w, specScore words w)) := by
    apply List.map_congr_left
    intro w _
    rw [score_eq_specScore]
  rw [hmap] at hperm
  exact hperm

/-- Witness for C8 on a concrete nonempty candidate list. -/
theorem claim_C8_witness :
    (score_by_letter_coverage (('a' :: []) :: [])).Perm
      ((('a' :: []) :: []).map
        (fun w => (w, specScore (('a' :: []) :: []) w))) :=
  claim_C8.2.2.1 _ (by decide)

/-- C9: across any sequence of rounds, the accumulated constraints only
grow: fixed-position keys, minimum-count keys, banned letters, banned
indices and excluded letters are never removed, and each letter's minimum
never decreases. -/
theorem claim_C9 (rounds : List Round) (st : SolverState) :
    stateLE st (applyRounds st rounds) :=
  stateLE_applyRounds rounds st

/-- Witness for C9 on a concrete round sequence. -/
theorem claim_C9_witness :
    stateLE emptyState (applyRounds emptyState
      [⟨'a' :: 'b' :: [], [(0, 'a')], [('b', 0)]⟩]) :=
  claim_C9 _ _

/-- C10: candidate_ok returns a boolean whenever every fixed position and
banned index is below the word length; with an index out of range it
raises (returns none) instead; and the session loop maintains exactly
these bounds, starting from the length-filtered dictionary, so its filter
never crashes. -/
theorem claim_C10 :
    (∀ word st, (∀ p ∈ st.greens, p.1 < word.length) →
      (∀ p ∈ st.banned, ∀ i ∈ p.2, i < word.length) →
      (candidate_ok word st).isSome = true) ∧
    candidate_ok ('a' :: 'b' :: []) ⟨[(5, 'a')], [], [], []⟩ = none ∧
    (∀ wl ls guess gp yp, loopInvariant wl ls →
      round_step wl ls guess gp yp ≠ .crashed ∧
      ∀ ls', (round_step wl ls guess gp yp = .quit ls' ∨
        round_step wl ls guess gp yp = .rejected ls' ∨
        round_step wl ls guess gp yp = .accepted ls') →
        loopInvariant wl ls') ∧
    (∀ words wl, loopInvariant wl ⟨filter_by_length words wl, emptyState⟩) := by
  refine ⟨candidate_ok_isSome, by decide, ?_, loopInvariant_init⟩
  intro wl ls guess gp yp hinv
  exact loopInvariant_round_step wl ls guess gp yp hinv

/-- Witness for C10: a bounded concrete state gives a boolean, and a
concrete loop round from the filtered dictionary does not crash. -/
theorem claim_C10_witness :
    (candidate_ok ('a' :: 'b' :: [])
      ⟨[(1, 'b')], [], [('a', [1])], []⟩).isSome = true ∧
    round_step 2 ⟨filter_by_length (('a' :: 'b' :: []) :: []) 2, emptyState⟩
      ('a' :: 'b' :: []) ('.' :: '.' :: []) [] ≠ .crashed :=
  ⟨claim_C10.1 _ _ (by decide) (by decide),
   (claim_C10.2.2.1 2
      ⟨filter_by_length (('a' :: 'b' :: []) :: []) 2, emptyState⟩
      ('a' :: 'b' :: []) ('.' :: '.' :: []) []
      (claim_C10.2.2.2 (('a' :: 'b' :: []) :: []) 2)).1⟩

end WordleSolver
